import Mathlib

/-!
Verification development for the configuration-export command of the
MCPJungle repository (`cmd/export.go`).

The Go code is shallowly embedded as follows.

* Paths are `String`s; the `path/filepath` stdlib functions used by the
  code (`Clean`, `Join`, `Abs`, `Base`) are modelled on `List Char`
  segment lists, matching their documented lexical semantics on Unix.
* The filesystem is an explicit state (`FS`): a set of existing
  directories and a map from file paths to file contents.  Environmental
  failures of `os.Mkdir`/`os.WriteFile` (permissions, I/O errors) are
  modelled by fault oracles (`mkdirFails`, `writeFails`) carried by the
  `World`.
* The api client used by `runExport` is modelled by the two listing
  results (`groupsResult`, `serversResult`) carried by the `World`:
  each is either an error or the returned list of entities.
* Entities (`ToolGroupConfig` / `ServerConfig` values) carry their
  `Name` field and their full JSON representation; `json.MarshalIndent`
  is modelled by a deterministic serializer over that representation.
  With entities represented as JSON values, the serializer is total,
  matching the behavior of `encoding/json` on the plain config structs.
* Printing through cobra's `cmd.Printf`/`cmd.Println` is modelled as a
  list of emitted message strings (format verbs substituted, trailing
  newline bookkeeping dropped).
-/

abbrev GoError := String

/-! ## Character-level path model (Unix `path/filepath`) -/

/-- Split a character list at every `'/'` (keeping empty segments),
the segment decomposition used to model the lexical path functions. -/
def splitSlashAux : List Char → List Char → List (List Char)
  | [], cur => [cur.reverse]
  | c :: rest, cur =>
    if c = '/' then cur.reverse :: splitSlashAux rest []
    else splitSlashAux rest (c :: cur)

/-- Split a path's characters into its `'/'`-separated segments. -/
def splitSlash (p : List Char) : List (List Char) := splitSlashAux p []

/-- Join segments back with a single `'/'` between consecutive segments. -/
def joinSlash : List (List Char) → List Char
  | [] => []
  | [s] => s
  | s :: rest => s ++ '/' :: joinSlash rest

/-- Unix `filepath.IsAbs`: the path starts with a slash. -/
def isAbsChars : List Char → Bool
  | [] => false
  | c :: _ => c == '/'

/-- Core loop of `filepath.Clean`: process segments left to right,
dropping empty and `.` segments, resolving `..` against the
accumulated output (which is kept reversed).  In a rooted path a `..`
at the root is dropped; in a relative path it is kept. -/
def cleanSegsAux (rooted : Bool) : List (List Char) → List (List Char) → List (List Char)
  | [], acc => acc.reverse
  | s :: rest, acc =>
    if s = [] ∨ s = ['.'] then cleanSegsAux rooted rest acc
    else if s = ['.', '.'] then
      match acc with
      | [] => cleanSegsAux rooted rest (if rooted then [] else [['.', '.']])
      | a :: acc' =>
        if a = ['.', '.'] then cleanSegsAux rooted rest (['.', '.'] :: a :: acc')
        else cleanSegsAux rooted rest acc'
    else cleanSegsAux rooted rest (s :: acc)

/-- `filepath.Clean` on Unix, on the character list of the path:
collapse redundant separators and resolve `.`/`..` segments lexically. -/
def cleanChars (p : List Char) : List Char :=
  if p = [] then ['.']
  else
    let rooted := isAbsChars p
    let segs := cleanSegsAux rooted (splitSlash p) []
    if rooted then '/' :: joinSlash segs
    else if segs = [] then ['.'] else joinSlash segs

/-- `filepath.Clean` on strings. -/
def filepathClean (p : String) : String := String.mk (cleanChars p.toList)

/-- `filepath.Join` of two elements: drop leading empty elements, join
the rest with `'/'` and clean the result (Go returns `""` when all
elements are empty). -/
def joinChars (a b : List Char) : List Char :=
  if a = [] then (if b = [] then [] else cleanChars b)
  else cleanChars (a ++ '/' :: b)

/-- `filepath.Join` on strings. -/
def filepathJoin (a b : String) : String := String.mk (joinChars a.toList b.toList)

/-- `filepath.Abs`: an absolute path is cleaned, a relative path is
joined onto the current working directory (`os.Getwd` is modelled as a
given, always-available working directory). -/
def filepathAbs (cwd p : String) : String :=
  if isAbsChars p.toList then filepathClean p else filepathJoin cwd p

/-- `filepath.Base` on the character list: strip trailing slashes, then
keep everything after the last remaining slash; `""` gives `"."` and an
all-slash path gives `"/"`. -/
def baseChars (p : List Char) : List Char :=
  if p = [] then ['.']
  else
    let q := (p.reverse.dropWhile (fun c => c == '/')).reverse
    if q = [] then ['/']
    else (q.reverse.takeWhile (fun c => c != '/')).reverse

/-- `filepath.Base` on strings. -/
def filepathBase (p : String) : String := String.mk (baseChars p.toList)

/-- Parent directory of a path in the filesystem model: drop the last
segment and its separator (the parent of `"/"` is `"/"` itself). -/
def parentChars (p : List Char) : List Char :=
  let r := ((p.reverse.dropWhile (fun c => c != '/')).dropWhile (fun c => c == '/')).reverse
  if r = [] then (if isAbsChars p then ['/'] else []) else r

/-- Parent directory of a path, on strings. -/
def parentPath (p : String) : String := String.mk (parentChars p.toList)

/-- `strings.HasPrefix` on character lists. -/
def startsWithChars : List Char → List Char → Bool
  | _, [] => true
  | [], _ :: _ => false
  | c :: cs, p :: ps => c == p && startsWithChars cs ps

/-- `strings.HasPrefix` on strings. -/
def goStartsWith (s pre : String) : Bool := startsWithChars s.toList pre.toList

/-- Go string slicing `s[n:]` (the code only slices off an ASCII
prefix, where byte and character counts agree). -/
def goDrop (s : String) (n : Nat) : String := String.mk (s.toList.drop n)

/-! ## JSON values and `json.MarshalIndent(v, "", "  ")` -/

/-- JSON values, the serializable shape of an exported entity. -/
inductive JSONValue where
  | null : JSONValue
  | bool (b : Bool) : JSONValue
  | num (n : Int) : JSONValue
  | str (s : String) : JSONValue
  | arr (elems : List JSONValue) : JSONValue
  | obj (fields : List (String × JSONValue)) : JSONValue

/-- Escape one character the way `encoding/json` escapes string
content (quote, backslash, common control characters, and the
HTML-sensitive characters `<`, `>`, `&`). -/
def jsonEscapeChar (c : Char) : List Char :=
  if c = '"' then ['\\', '"']
  else if c = '\\' then ['\\', '\\']
  else if c = '\n' then ['\\', 'n']
  else if c = '\r' then ['\\', 'r']
  else if c = '\t' then ['\\', 't']
  else if c = '<' then "\\u003c".toList
  else if c = '>' then "\\u003e".toList
  else if c = '&' then "\\u0026".toList
  else [c]

/-- Serialize a JSON string literal, quotes included. -/
def jsonQuote (s : String) : String :=
  "\"" ++ String.mk ((s.toList.map jsonEscapeChar).flatten) ++ "\""

/-- Indentation prefix at nesting depth `d` for a two-space indent. -/
def indentStr (d : Nat) : String := String.join (List.replicate d "  ")

mutual

/-- Serialize a JSON value at nesting depth `d`, in the layout produced
by `json.MarshalIndent(v, "", "  ")`: each composite opens on the
current line, puts every member on its own deeper-indented line, and
closes at the opening indentation; empty composites stay on one line. -/
def marshalValue : Nat → JSONValue → String
  | _, .null => "null"
  | _, .bool true => "true"
  | _, .bool false => "false"
  | _, .num n => toString n
  | _, .str s => jsonQuote s
  | _, .arr [] => "[]"
  | d, .arr (x :: xs) => "[\n" ++ marshalElems (d + 1) x xs ++ "\n" ++ indentStr d ++ "]"
  | _, .obj [] => "\x7b\x7d"
  | d, .obj (f :: fs) => "\x7b\n" ++ marshalFields (d + 1) f fs ++ "\n" ++ indentStr d ++ "\x7d"
termination_by _ v => sizeOf v

/-- Serialize the elements of a nonempty JSON array, one per line. -/
def marshalElems : Nat → JSONValue → List JSONValue → String
  | d, x, [] => indentStr d ++ marshalValue d x
  | d, x, y :: ys => indentStr d ++ marshalValue d x ++ ",\n" ++ marshalElems d y ys
termination_by _ x xs => sizeOf x + sizeOf xs + 1

/-- Serialize the fields of a nonempty JSON object, one per line. -/
def marshalFields : Nat → (String × JSONValue) → List (String × JSONValue) → String
  | d, (k, v), [] => indentStr d ++ jsonQuote k ++ ": " ++ marshalValue d v
  | d, (k, v), f :: fs =>
    indentStr d ++ jsonQuote k ++ ": " ++ marshalValue d v ++ ",\n" ++ marshalFields d f fs
termination_by _ f fs => sizeOf f + sizeOf fs + 1

end

/-- `json.MarshalIndent(v, "", "  ")`.  On the JSON representation of
an entity this serializer is total and deterministic, matching
`encoding/json` on the exported config structs. -/
def marshalIndent (v : JSONValue) : String := marshalValue 0 v

/-! ## Filesystem state and `os` operations -/

/-- Filesystem state: the set of existing directories and the map from
file paths to contents.  All paths are absolute and cleaned, as
produced by the export code. -/
structure FS where
  dirs : List String
  files : List (String × String)
deriving DecidableEq

/-- Whether `p` exists as a directory. -/
def fsIsDir (fs : FS) (p : String) : Bool := fs.dirs.contains p

/-- Whether `p` exists as a regular file. -/
def fsIsFile (fs : FS) (p : String) : Bool := (fs.files.map Prod.fst).contains p

/-- Look up the content of file `p`. -/
def lookupFile : List (String × String) → String → Option String
  | [], _ => none
  | (q, c) :: rest, p => if q = p then some c else lookupFile rest p

/-- Content of file `p` in the filesystem. -/
def fsFileContent (fs : FS) (p : String) : Option String := lookupFile fs.files p

/-- Write (create or overwrite) the entry for `p` in a file map. -/
def setFile : List (String × String) → String → String → List (String × String)
  | [], p, c => [(p, c)]
  | (q, d) :: rest, p, c =>
    if q = p then (p, c) :: rest else (q, d) :: setFile rest p c

/-- Immediate entries of directory `p`: child directories and files. -/
def dirEntries (fs : FS) (p : String) : List String :=
  fs.dirs.filter (fun d => parentPath d == p && d != p)
    ++ (fs.files.map Prod.fst).filter (fun f => parentPath f == p)

/-- An entity as returned by the api client: its `Name` field plus its
full JSON representation (which `json.MarshalIndent` serializes). -/
structure Entity where
  Name : String
  value : JSONValue

/-- The environment of one run: flag value, home-directory lookup
result, working directory, initial filesystem, fault oracles for
directory creation and file writes, and the two api listing results. -/
structure World where
  exportCmdTargetDir : String
  homeDir : Except GoError String
  cwd : String
  fs : FS
  mkdirFails : List String
  writeFails : List String
  groupsResult : Except GoError (List Entity)
  serversResult : Except GoError (List Entity)

/-- `os.ReadDir`: list the immediate entries of an existing directory. -/
def osReadDir (fs : FS) (p : String) : Except GoError (List String) :=
  if fsIsDir fs p then .ok (dirEntries fs p)
  else .error ("open " ++ p ++ ": no such file or directory")

/-- `os.Mkdir`: create a single directory; fails if the path already
exists, if the environment injects a failure, or if the parent is
missing. -/
def osMkdir (w : World) (fs : FS) (p : String) : Except GoError FS :=
  if fsIsDir fs p || fsIsFile fs p then .error ("mkdir " ++ p ++ ": file exists")
  else if w.mkdirFails.contains p then .error ("mkdir " ++ p ++ ": permission denied")
  else if !fsIsDir fs (parentPath p) then .error ("mkdir " ++ p ++ ": no such file or directory")
  else .ok { fs with dirs := p :: fs.dirs }

/-- The chain of ancestors of an absolute path, from the shallowest
strict descendant of the root down to the path itself. -/
def ancestorChain (p : String) : List String :=
  let segs := (splitSlash p.toList).filter (fun s => s ≠ [])
  (List.range segs.length).map
    (fun i => String.mk ('/' :: joinSlash (segs.take (i + 1))))

/-- `os.MkdirAll`: succeed immediately if the path is already a
directory, otherwise create every missing ancestor top-down.  A file in
the way or an injected creation failure aborts with an error. -/
def osMkdirAll (w : World) (fs : FS) (p : String) : Except GoError FS :=
  if fsIsDir fs p then .ok fs
  else if fsIsFile fs p then .error ("mkdir " ++ p ++ ": not a directory")
  else
    (ancestorChain p).foldlM
      (fun fs q =>
        if fsIsDir fs q then .ok fs
        else if fsIsFile fs q then .error ("mkdir " ++ q ++ ": not a directory")
        else if w.mkdirFails.contains q then .error ("mkdir " ++ q ++ ": permission denied")
        else .ok { fs with dirs := q :: fs.dirs })
      fs

/-- `os.WriteFile`: create or truncate-and-overwrite a file; fails on
an injected write failure, on an existing directory at the path, or on
a missing parent directory. -/
def osWriteFile (w : World) (fs : FS) (p content : String) : Except GoError FS :=
  if w.writeFails.contains p then .error ("open " ++ p ++ ": input output error")
  else if fsIsDir fs p then .error ("open " ++ p ++ ": is a directory")
  else if !fsIsDir fs (parentPath p) then .error ("open " ++ p ++ ": no such file or directory")
  else .ok { fs with files := setFile fs.files p content }

/-! ## The export command (`cmd/export.go`) -/

/-- Default target directory (`defaultExportTargetDir`). -/
def defaultExportTargetDir : String := ".mcpjungle"

/-- Subdirectory for MCP server configs (`exportMcpServersDir`). -/
def exportMcpServersDir : String := "servers"

/-- Subdirectory for tool group configs (`exportToolGroupsDir`). -/
def exportToolGroupsDir : String := "groups"

/-- Tilde-expansion step of `resolveTargetDirForExport`
(`export.go` lines 58-68): for any `~`-prefixed path the user's home
directory is looked up and a lookup failure is returned; `~` becomes
the home directory, `~/rest` becomes `Join(home, rest)`, and any other
`~`-prefixed form is passed through unchanged. -/
def expandTilde (w : World) (targetDir : String) : Except GoError String :=
  if goStartsWith targetDir "~" then
    match w.homeDir with
    | .error err => .error err
    | .ok home =>
      if targetDir = "~" then .ok home
      else if goStartsWith targetDir "~/" then .ok (filepathJoin home (goDrop targetDir 2))
      else .ok targetDir
  else .ok targetDir

/-- Pure path computation of `resolveTargetDirForExport`
(`export.go` lines 52-75): default substitution, tilde expansion,
absolute-path conversion, and cleaning. -/
def computeTargetPath (w : World) : Except GoError String :=
  match expandTilde w
      (if w.exportCmdTargetDir = "" then defaultExportTargetDir
       else w.exportCmdTargetDir) with
  | .error e => .error e
  | .ok td => .ok (filepathClean (filepathAbs w.cwd td))

/-- `resolveTargetDirForExport` (`export.go` lines 52-92): compute the
target path, create it (and missing ancestors) with `os.MkdirAll`, then
require it to be empty; returns the resulting filesystem and path. -/
def resolveTargetDirForExport (w : World) : Except GoError (FS × String) :=
  match computeTargetPath w with
  | .error e => .error e
  | .ok targetDir =>
    match osMkdirAll w w.fs targetDir with
    | .error e => .error e
    | .ok fs =>
      match osReadDir fs targetDir with
      | .error e =>
        .error ("failed to read contents of target directory " ++ targetDir ++ ": " ++ e)
      | .ok entries =>
        if entries.length > 0 then
          .error ("target directory " ++ targetDir ++ " is not empty")
        else .ok (fs, targetDir)

/-- The filename used for one entity's config file
(`export.go` line 95): `Join(entityDir, Base(entityName) + ".json")`. -/
def entityFilePath (entityDir entityName : String) : String :=
  filepathJoin entityDir (filepathBase entityName ++ ".json")

/-- `writeJSONConfigFile` (`export.go` lines 94-104): write the
indented JSON serialization of `entity` to
`Join(entityDir, Base(entityName) + ".json")`.  On the JSON model of
entities `json.MarshalIndent` cannot fail, so the only error source is
the file write, wrapped with the filename. -/
def writeJSONConfigFile (w : World) (fs : FS) (entityDir entityName : String)
    (entity : JSONValue) : Except GoError FS :=
  match osWriteFile w fs (entityFilePath entityDir entityName) (marshalIndent entity) with
  | .error e =>
    .error ("failed to write entity file " ++ entityFilePath entityDir entityName ++ ": " ++ e)
  | .ok fs' => .ok fs'

/-- The per-category write loop of `runExport`: write each entity's
config file in order, stopping at (and returning) the first error. -/
def writeEntities (w : World) (dir : String) : List Entity → FS → FS × Option GoError
  | [], fs => (fs, none)
  | e :: rest, fs =>
    match writeJSONConfigFile w fs dir e.Name e.value with
    | .error err => (fs, some err)
    | .ok fs' => writeEntities w dir rest fs'

/-- Server-category phase of `runExport` (`export.go` lines 145-165):
fetch the server configs, degrade a listing failure to a warning, and
otherwise write every server entity (a write failure aborting the run). -/
def exportServersPhase (w : World) (fs : FS) (out : List String) (serversDir : String) :
    FS × List String × Option GoError :=
  let out := out ++ ["Fetching MCP Server configurations..."]
  match w.serversResult with
  | .error sErr =>
    (fs, out ++ ["warning: failed to fetch mcp server configurations: " ++ sErr,
      "Export complete!"], none)
  | .ok servers =>
    if servers.isEmpty then (fs, out ++ ["No MCP Servers found.", "Export complete!"], none)
    else
      let out := out ++ ["Writing MCP Server configurations to " ++ serversDir]
      match writeEntities w serversDir servers fs with
      | (fs', some err) => (fs', out, some err)
      | (fs', none) => (fs', out ++ ["Export complete!"], none)

/-- Fetch-and-write phases of `runExport` (`export.go` lines 123-165),
entered once both category subdirectories exist: fetch the tool-group
configs, degrade a listing failure to a warning, otherwise write every
group entity (a write failure aborting the run), then run the server
phase. -/
def exportFetchPhase (w : World) (fs : FS) (out : List String) (groupsDir serversDir : String) :
    FS × List String × Option GoError :=
  let out := out ++ ["Fetching Tool Group configurations..."]
  match w.groupsResult with
  | .error gErr =>
    exportServersPhase w fs
      (out ++ ["warning: failed to fetch tool group configurations: " ++ gErr]) serversDir
  | .ok groups =>
    if groups.isEmpty then exportServersPhase w fs (out ++ ["No Tool Groups found."]) serversDir
    else
      let out := out ++ ["Writing Tool Groups configurations to " ++ groupsDir]
      match writeEntities w groupsDir groups fs with
      | (fs', some err) => (fs', out, some err)
      | (fs', none) => exportServersPhase w fs' out serversDir

/-- `runExport` (`export.go` lines 106-168): resolve the target
directory, create the two fixed category subdirectories (each failure
fatal), then run the fetch-and-write phases.  Returns the final
filesystem, the emitted messages, and the command's error result. -/
def runExport (w : World) : FS × List String × Option GoError :=
  match resolveTargetDirForExport w with
  | .error err => (w.fs, [], some ("failed to resolve target directory for export: " ++ err))
  | .ok (fs0, targetDir) =>
    let out := ["Creating subdirectories inside " ++ targetDir]
    let groupsDir := filepathJoin targetDir exportToolGroupsDir
    match osMkdir w fs0 groupsDir with
    | .error e => (fs0, out, some ("failed to create groups directory: " ++ e))
    | .ok fs1 =>
      let serversDir := filepathJoin targetDir exportMcpServersDir
      match osMkdir w fs1 serversDir with
      | .error e => (fs1, out, some ("failed to create mcp servers directory: " ++ e))
      | .ok fs2 => exportFetchPhase w fs2 out groupsDir serversDir

/-! ## Lemmas about the path segment model -/

/-- A path segment free of separators. -/
def NoSlash (s : List Char) : Prop := ∀ c ∈ s, ¬ c = '/'

/-- A segment that `Clean` passes through unchanged: nonempty, not
`.`, not `..`, and free of separators. -/
def NormalSeg (s : List Char) : Prop :=
  s ≠ [] ∧ s ≠ ['.'] ∧ s ≠ ['.', '.'] ∧ NoSlash s

instance (s : List Char) : Decidable (NoSlash s) :=
  inferInstanceAs (Decidable (∀ c ∈ s, ¬ c = '/'))

instance (s : List Char) : Decidable (NormalSeg s) :=
  inferInstanceAs (Decidable (_ ∧ _ ∧ _ ∧ NoSlash s))

theorem splitSlashAux_append_seg (s : List Char) :
    ∀ (t cur : List Char), NoSlash s →
      splitSlashAux (s ++ t) cur = splitSlashAux t (s.reverse ++ cur) := by
  induction s with
  | nil => intro t cur _; simp
  | cons c cs ih =>
    intro t cur hns
    have hc : ¬ c = '/' := hns c (by simp)
    simp only [List.cons_append, splitSlashAux, if_neg hc, List.append_eq]
    rw [ih t (c :: cur) (fun x hx => hns x (by simp [hx]))]
    simp

theorem splitSlashAux_slash (t cur : List Char) :
    splitSlashAux ('/' :: t) cur = cur.reverse :: splitSlashAux t [] := by
  simp [splitSlashAux]

theorem splitSlash_single (s : List Char) (h : NoSlash s) : splitSlash s = [s] := by
  have := splitSlashAux_append_seg s [] [] h
  simpa [splitSlash, splitSlashAux] using this

theorem splitSlash_cons_slash (t : List Char) :
    splitSlash ('/' :: t) = [] :: splitSlash t := by
  simp [splitSlash, splitSlashAux_slash]

theorem joinSlash_cons_of_ne (s : List Char) (rest : List (List Char)) (h : rest ≠ []) :
    joinSlash (s :: rest) = s ++ '/' :: joinSlash rest := by
  cases rest with
  | nil => exact absurd rfl h
  | cons r rs => rfl

theorem splitSlash_joinSlash (segs : List (List Char)) (hne : segs ≠ [])
    (hns : ∀ s ∈ segs, NoSlash s) : splitSlash (joinSlash segs) = segs := by
  induction segs with
  | nil => exact absurd rfl hne
  | cons s rest ih =>
    cases rest with
    | nil => simpa [joinSlash] using splitSlash_single s (hns s (by simp))
    | cons r rs =>
      rw [joinSlash_cons_of_ne s (r :: rs) (by simp)]
      unfold splitSlash
      rw [splitSlashAux_append_seg s ('/' :: joinSlash (r :: rs)) [] (hns s (by simp)),
        splitSlashAux_slash]
      have : splitSlash (joinSlash (r :: rs)) = r :: rs :=
        ih (by simp) (fun x hx => hns x (by simp [hx]))
      simp [splitSlash] at this
      simp [this]

theorem splitSlash_join_append (segs : List (List Char)) (t : List Char) (hne : segs ≠ [])
    (hns : ∀ s ∈ segs, NoSlash s) :
    splitSlash (joinSlash segs ++ '/' :: t) = segs ++ splitSlash t := by
  induction segs with
  | nil => exact absurd rfl hne
  | cons s rest ih =>
    cases rest with
    | nil =>
      unfold splitSlash
      rw [show joinSlash [s] ++ '/' :: t = s ++ '/' :: t from rfl,
        splitSlashAux_append_seg s ('/' :: t) [] (hns s (by simp)), splitSlashAux_slash]
      simp [splitSlash]
    | cons r rs =>
      rw [joinSlash_cons_of_ne s (r :: rs) (by simp)]
      unfold splitSlash
      rw [List.append_assoc, List.cons_append,
        splitSlashAux_append_seg s ('/' :: (joinSlash (r :: rs) ++ '/' :: t)) []
          (hns s (by simp)), splitSlashAux_slash]
      have := ih (by simp) (fun x hx => hns x (by simp [hx]))
      simp only [splitSlash] at this
      simp [this]

theorem joinSlash_inj (l1 l2 : List (List Char)) (h1 : l1 ≠ []) (h2 : l2 ≠ [])
    (hns1 : ∀ s ∈ l1, NoSlash s) (hns2 : ∀ s ∈ l2, NoSlash s)
    (h : joinSlash l1 = joinSlash l2) : l1 = l2 := by
  have := splitSlash_joinSlash l1 h1 hns1
  rw [h, splitSlash_joinSlash l2 h2 hns2] at this
  exact this.symm

theorem splitSlash_no_slash (p : List Char) : ∀ s ∈ splitSlash p, NoSlash s := by
  suffices h : ∀ (p cur : List Char), NoSlash cur →
      ∀ s ∈ splitSlashAux p cur, NoSlash s by
    intro s hs
    exact h p [] (by intro c hc; cases hc) s hs
  intro p
  induction p with
  | nil =>
    intro cur hcur s hs
    simp [splitSlashAux] at hs
    subst hs
    intro c hc
    exact hcur c (by simpa using hc)
  | cons c cs ih =>
    intro cur hcur s hs
    by_cases hc : c = '/'
    · subst hc
      simp only [splitSlashAux, if_pos rfl] at hs
      rcases List.mem_cons.mp hs with h | h
      · subst h; intro x hx; exact hcur x (by simpa using hx)
      · exact ih [] (by intro x hx; cases hx) s h
    · simp only [splitSlashAux, if_neg hc] at hs
      exact ih (c :: cur) (by
        intro x hx
        rcases List.mem_cons.mp hx with h | h
        · subst h; exact hc
        · exact hcur x h) s hs

theorem cleanSegsAux_normal (segs : List (List Char)) :
    ∀ (acc : List (List Char)), (∀ s ∈ segs, NoSlash s) → (∀ a ∈ acc, NormalSeg a) →
      ∀ x ∈ cleanSegsAux true segs acc, NormalSeg x := by
  induction segs with
  | nil =>
    intro acc _ hacc x hx
    simp only [cleanSegsAux] at hx
    exact hacc x (List.mem_reverse.mp hx)
  | cons s rest ih =>
    intro acc hns hacc x hx
    have hrest : ∀ t ∈ rest, NoSlash t := fun t ht => hns t (by simp [ht])
    by_cases h1 : s = [] ∨ s = ['.']
    · simp only [cleanSegsAux, if_pos h1] at hx
      exact ih acc hrest hacc x hx
    · by_cases h2 : s = ['.', '.']
      · simp only [cleanSegsAux, if_neg h1, if_pos h2] at hx
        cases acc with
        | nil => simp only [if_pos rfl] at hx; exact ih [] hrest (by simp) x hx
        | cons a acc' =>
          have ha : NormalSeg a := hacc a (by simp)
          have hane : ¬ a = ['.', '.'] := ha.2.2.1
          simp only [if_neg hane] at hx
          exact ih acc' hrest (fun y hy => hacc y (by simp [hy])) x hx
      · simp only [cleanSegsAux, if_neg h1, if_neg h2] at hx
        refine ih (s :: acc) hrest ?_ x hx
        intro y hy
        rcases List.mem_cons.mp hy with h | h
        · subst h
          push_neg at h1
          exact ⟨h1.1, h1.2, h2, hns _ (by simp)⟩
        · exact hacc y h

theorem cleanSegsAux_no_special (segs : List (List Char)) :
    ∀ (acc : List (List Char)) (rooted : Bool), (∀ s ∈ segs, s ≠ ['.', '.']) →
      cleanSegsAux rooted segs acc
        = acc.reverse ++ segs.filter (fun s => decide (s ≠ [] ∧ s ≠ ['.'])) := by
  induction segs with
  | nil => intro acc rooted _; simp [cleanSegsAux]
  | cons s rest ih =>
    intro acc rooted hsp
    have hrest : ∀ t ∈ rest, t ≠ ['.', '.'] := fun t ht => hsp t (by simp [ht])
    have h2 : ¬ s = ['.', '.'] := hsp s (by simp)
    by_cases h1 : s = [] ∨ s = ['.']
    · have hfilt : (decide (s ≠ [] ∧ s ≠ ['.'])) = false := by
        rcases h1 with h | h <;> subst h <;> simp
      simp only [cleanSegsAux, if_pos h1, List.filter_cons, hfilt]
      exact ih acc rooted hrest
    · have hfilt : (decide (s ≠ [] ∧ s ≠ ['.'])) = true := by
        push_neg at h1
        simp [h1.1, h1.2]
      simp only [cleanSegsAux, if_neg h1, if_neg h2, List.filter_cons, hfilt]
      rw [ih (s :: acc) rooted hrest]
      simp

theorem isAbsChars_shape {p : List Char} (h : isAbsChars p = true) : ∃ t, p = '/' :: t := by
  cases p with
  | nil => simp [isAbsChars] at h
  | cons c t =>
    simp only [isAbsChars, beq_iff_eq] at h
    exact ⟨t, by rw [h]⟩

theorem cleanChars_rooted_shape (t : List Char) :
    cleanChars ('/' :: t) = '/' :: joinSlash (cleanSegsAux true (splitSlash ('/' :: t)) []) := by
  simp [cleanChars, isAbsChars]

theorem isAbs_cleanChars (p : List Char) (h : isAbsChars p = true) :
    isAbsChars (cleanChars p) = true := by
  obtain ⟨t, rfl⟩ := isAbsChars_shape h
  rw [cleanChars_rooted_shape]
  rfl

theorem filter_of_normal (segs : List (List Char)) (h : ∀ s ∈ segs, NormalSeg s) :
    segs.filter (fun s => decide (s ≠ [] ∧ s ≠ ['.'])) = segs := by
  refine List.filter_eq_self.mpr ?_
  intro a ha
  have := h a ha
  simp [this.1, this.2.1]

theorem cleanChars_idem_rooted (p : List Char) (h : isAbsChars p = true) :
    cleanChars (cleanChars p) = cleanChars p := by
  obtain ⟨t, rfl⟩ := isAbsChars_shape h
  rw [cleanChars_rooted_shape]
  have hnorm : ∀ x ∈ cleanSegsAux true (splitSlash ('/' :: t)) [], NormalSeg x :=
    cleanSegsAux_normal (splitSlash ('/' :: t)) [] (splitSlash_no_slash ('/' :: t)) (by simp)
  cases hne : cleanSegsAux true (splitSlash ('/' :: t)) [] with
  | nil => decide
  | cons a as =>
    rw [hne] at hnorm
    rw [cleanChars_rooted_shape, splitSlash_cons_slash,
      splitSlash_joinSlash (a :: as) (by simp) (fun s hs => (hnorm s hs).2.2.2)]
    have heq : cleanSegsAux true ([] :: a :: as) [] = cleanSegsAux true (a :: as) [] := by
      simp [cleanSegsAux]
    rw [heq, cleanSegsAux_no_special (a :: as) [] true (fun s hs => (hnorm s hs).2.2.1),
      filter_of_normal (a :: as) hnorm]
    simp

/-- A string that is an absolute path already in cleaned form. -/
def IsCleanAbs (s : String) : Prop :=
  isAbsChars s.toList = true ∧ cleanChars s.toList = s.toList

instance (s : String) : Decidable (IsCleanAbs s) :=
  inferInstanceAs (Decidable (_ ∧ _))

instance {ε α : Type} [DecidableEq ε] [DecidableEq α] : DecidableEq (Except ε α) :=
  fun a b =>
    match a, b with
    | .error e1, .error e2 =>
      if h : e1 = e2 then isTrue (by rw [h])
      else isFalse (fun he => h (by cases he; rfl))
    | .ok v1, .ok v2 =>
      if h : v1 = v2 then isTrue (by rw [h])
      else isFalse (fun he => h (by cases he; rfl))
    | .error _, .ok _ => isFalse (fun he => by cases he)
    | .ok _, .error _ => isFalse (fun he => by cases he)

/-- Every clean absolute path is a slash followed by slash-joined
normal segments. -/
theorem IsCleanAbs.shape {s : String} (h : IsCleanAbs s) :
    ∃ segs, s.toList = '/' :: joinSlash segs ∧ ∀ x ∈ segs, NormalSeg x := by
  obtain ⟨habs, hclean⟩ := h
  obtain ⟨t, hp⟩ := isAbsChars_shape habs
  rw [hp] at hclean
  refine ⟨cleanSegsAux true (splitSlash ('/' :: t)) [], ?_, ?_⟩
  · rw [hp]
    exact hclean.symm.trans (cleanChars_rooted_shape t)
  · exact cleanSegsAux_normal (splitSlash ('/' :: t)) [] (splitSlash_no_slash _) (by simp)

theorem dropWhile_append_all {p : Char → Bool} (l1 l2 : List Char)
    (h : ∀ x ∈ l1, p x = true) :
    List.dropWhile p (l1 ++ l2) = List.dropWhile p l2 := by
  induction l1 with
  | nil => simp
  | cons x xs ih =>
    simp only [List.cons_append, List.dropWhile_cons, h x (by simp), if_pos]
    exact ih (fun y hy => h y (by simp [hy]))

theorem dropWhile_cons_false {p : Char → Bool} {x : Char} (l : List Char)
    (h : p x = false) : List.dropWhile p (x :: l) = x :: l := by
  simp [List.dropWhile_cons, h]

theorem joinSlash_append_last (segs : List (List Char)) (c : List Char) (h : segs ≠ []) :
    joinSlash (segs ++ [c]) = joinSlash segs ++ '/' :: c := by
  induction segs with
  | nil => exact absurd rfl h
  | cons s rest ih =>
    cases rest with
    | nil => simp [joinSlash]
    | cons r rs =>
      rw [List.cons_append, joinSlash_cons_of_ne s ((r :: rs) ++ [c]) (by simp),
        joinSlash_cons_of_ne s (r :: rs) (by simp), ih (by simp)]
      simp

theorem joinSlash_rev_head (segs : List (List Char)) (hne : segs ≠ [])
    (h : ∀ x ∈ segs, x ≠ [] ∧ NoSlash x) :
    ∃ ch cs, (joinSlash segs).reverse = ch :: cs ∧ ¬ ch = '/' := by
  induction segs with
  | nil => exact absurd rfl hne
  | cons s rest ih =>
    cases rest with
    | nil =>
      have hs := h s (by simp)
      cases hrev : s.reverse with
      | nil => exact absurd (by simpa using hrev) hs.1
      | cons ch cs =>
        refine ⟨ch, cs, by simpa [joinSlash] using hrev, ?_⟩
        have : ch ∈ s.reverse := by rw [hrev]; simp
        exact hs.2 ch (List.mem_reverse.mp this)
    | cons r rs =>
      obtain ⟨ch, cs, hrev, hch⟩ := ih (by simp) (fun x hx => h x (by simp [hx]))
      refine ⟨ch, cs ++ '/' :: s.reverse, ?_, hch⟩
      rw [joinSlash_cons_of_ne s (r :: rs) (by simp)]
      simp [hrev]

theorem cleanSegsAux_drop_nil (L : List (List Char)) (acc : List (List Char)) :
    cleanSegsAux true ([] :: L) acc = cleanSegsAux true L acc := by
  simp [cleanSegsAux]

theorem parentChars_join (segs : List (List Char)) (c : List Char)
    (hnorm : ∀ x ∈ segs, x ≠ [] ∧ NoSlash x) (hcs : NoSlash c) :
    parentChars ('/' :: joinSlash (segs ++ [c])) = '/' :: joinSlash segs := by
  cases segs with
  | nil =>
    show parentChars ('/' :: c) = _
    have hA : List.dropWhile (fun x => x != '/') (('/' :: c).reverse) = ['/'] := by
      rw [List.reverse_cons, dropWhile_append_all _ _ (by
        intro x hx
        have := hcs x (List.mem_reverse.mp hx)
        simpa using this)]
      decide
    have hB : (List.dropWhile (fun x => x == '/') ['/']) = ([] : List Char) := by decide
    simp only [parentChars, hA, hB]
    simp [isAbsChars, joinSlash]
  | cons a as =>
    have hne : (a :: as) ≠ [] := by simp
    rw [joinSlash_append_last (a :: as) c hne]
    obtain ⟨ch, cs, hrev, hch⟩ := joinSlash_rev_head (a :: as) hne hnorm
    have hA : List.dropWhile (fun x => x != '/')
        (('/' :: (joinSlash (a :: as) ++ '/' :: c)).reverse)
        = '/' :: ((joinSlash (a :: as)).reverse ++ ['/']) := by
      have hrw : ('/' :: (joinSlash (a :: as) ++ '/' :: c)).reverse
          = c.reverse ++ '/' :: ((joinSlash (a :: as)).reverse ++ ['/']) := by
        simp
      rw [hrw, dropWhile_append_all _ _ (by
        intro x hx
        have := hcs x (List.mem_reverse.mp hx)
        simpa using this)]
      exact dropWhile_cons_false _ (by simp)
    have hB : List.dropWhile (fun x => x == '/')
        ('/' :: ((joinSlash (a :: as)).reverse ++ ['/']))
        = (joinSlash (a :: as)).reverse ++ ['/'] := by
      rw [List.dropWhile_cons]
      simp only [beq_self_eq_true, if_pos]
      rw [hrev]
      exact dropWhile_cons_false _ (by simpa using hch)
    simp only [parentChars, hA, hB]
    have hrr : ((joinSlash (a :: as)).reverse ++ ['/']).reverse ≠ [] := by simp
    simp only [List.reverse_append, List.reverse_reverse, if_neg]
    simp

theorem joinChars_seg (segs : List (List Char)) (c : List Char)
    (hnorm : ∀ x ∈ segs, NormalSeg x) (hc : NormalSeg c) :
    joinChars ('/' :: joinSlash segs) c = '/' :: joinSlash (segs ++ [c]) := by
  obtain ⟨hc1, hc2, hc3, hc4⟩ := hc
  cases segs with
  | nil =>
    show cleanChars (['/'] ++ '/' :: c) = _
    have h0 : (['/'] ++ '/' :: c : List Char) = '/' :: ('/' :: c) := by simp
    rw [h0, cleanChars_rooted_shape, splitSlash_cons_slash, splitSlash_cons_slash,
      splitSlash_single c hc4, cleanSegsAux_drop_nil, cleanSegsAux_drop_nil,
      cleanSegsAux_no_special [c] [] true (by
        intro s hs
        rw [List.mem_singleton.mp hs]
        exact hc3),
      filter_of_normal [c] (by
        intro s hs
        rw [List.mem_singleton.mp hs]
        exact ⟨hc1, hc2, hc3, hc4⟩)]
    simp

  | cons a as =>
    have hne : (a :: as) ≠ [] := by simp
    have hL : ∀ s ∈ (a :: as) ++ [c], NormalSeg s := by
      intro s hs
      rcases List.mem_append.mp hs with h | h
      · exact hnorm s h
      · rw [List.mem_singleton.mp h]
        exact ⟨hc1, hc2, hc3, hc4⟩
    show cleanChars (('/' :: joinSlash (a :: as)) ++ '/' :: c) = _
    have h0 : (('/' :: joinSlash (a :: as)) ++ '/' :: c : List Char)
        = '/' :: (joinSlash (a :: as) ++ '/' :: c) := by simp
    rw [h0, cleanChars_rooted_shape, splitSlash_cons_slash,
      splitSlash_join_append (a :: as) c hne (fun s hs => (hnorm s hs).2.2.2),
      splitSlash_single c hc4, cleanSegsAux_drop_nil,
      cleanSegsAux_no_special ((a :: as) ++ [c]) [] true (fun s hs => (hL s hs).2.2.1),
      filter_of_normal ((a :: as) ++ [c]) hL]
    simp

theorem baseChars_simple (n : List Char) (hns : NoSlash n) (hne : n ≠ []) :
    baseChars n = n := by
  have hdw : List.dropWhile (fun c => c == '/') n.reverse = n.reverse := by
    cases hnr : n.reverse with
    | nil => simp
    | cons x xs =>
      refine dropWhile_cons_false _ ?_
      have hx : x ∈ n.reverse := by rw [hnr]; simp
      simpa using hns x (List.mem_reverse.mp hx)
  have htw : List.takeWhile (fun c => c != '/') n.reverse = n.reverse := by
    refine List.takeWhile_eq_self_iff.mpr ?_
    intro x hx
    simpa using hns x (List.mem_reverse.mp hx)
  simp only [baseChars, if_neg hne, hdw, List.reverse_reverse, htw]

theorem baseChars_cases (n : List Char) : baseChars n = ['/'] ∨ NoSlash (baseChars n) := by
  by_cases hne : n = []
  · subst hne
    right
    intro c hc
    simp [baseChars] at hc
    subst hc
    decide
  · by_cases hqe : (n.reverse.dropWhile (fun c => c == '/')).reverse = []
    · left
      simp [baseChars, hne, hqe]
    · right
      have hb : baseChars n
          = ((n.reverse.dropWhile (fun c => c == '/')).reverse.reverse.takeWhile
              (fun c => c != '/')).reverse := by
        simp [baseChars, hne, hqe]
      rw [hb]
      intro c hc
      have := List.mem_takeWhile_imp (List.mem_reverse.mp hc)
      simpa using this

theorem jsonSeg_normal (x : List Char) (hx : NoSlash x) :
    NormalSeg (x ++ ".json".toList) := by
  have hjson : ".json".toList = ['.', 'j', 's', 'o', 'n'] := rfl
  refine ⟨by simp [hjson], ?_, ?_, ?_⟩
  · intro h
    apply_fun List.length at h
    simp [hjson] at h
  · intro h
    apply_fun List.length at h
    simp [hjson] at h
  · intro c hc
    rcases List.mem_append.mp hc with h | h
    · exact hx c h
    · rw [hjson] at h
      simp at h
      rcases h with h | h | h | h | h <;> subst h <;> decide

theorem joinChars_seg_slash (segs : List (List Char)) (c : List Char)
    (hnorm : ∀ x ∈ segs, NormalSeg x) (hc : NormalSeg c) :
    joinChars ('/' :: joinSlash segs) ('/' :: c) = '/' :: joinSlash (segs ++ [c]) := by
  obtain ⟨hc1, hc2, hc3, hc4⟩ := hc
  cases segs with
  | nil =>
    show cleanChars (['/'] ++ '/' :: '/' :: c) = _
    have h0 : (['/'] ++ '/' :: '/' :: c : List Char) = '/' :: ('/' :: ('/' :: c)) := by simp
    rw [h0, cleanChars_rooted_shape, splitSlash_cons_slash, splitSlash_cons_slash,
      splitSlash_cons_slash, splitSlash_single c hc4,
      cleanSegsAux_drop_nil, cleanSegsAux_drop_nil, cleanSegsAux_drop_nil,
      cleanSegsAux_no_special [c] [] true (by
        intro s hs
        rw [List.mem_singleton.mp hs]
        exact hc3),
      filter_of_normal [c] (by
        intro s hs
        rw [List.mem_singleton.mp hs]
        exact ⟨hc1, hc2, hc3, hc4⟩)]
    simp
  | cons a as =>
    have hne : (a :: as) ≠ [] := by simp
    show cleanChars (('/' :: joinSlash (a :: as)) ++ '/' :: ('/' :: c)) = _
    have h0 : (('/' :: joinSlash (a :: as)) ++ '/' :: ('/' :: c) : List Char)
        = '/' :: (joinSlash (a :: as) ++ '/' :: ('/' :: c)) := by simp
    rw [h0, cleanChars_rooted_shape, splitSlash_cons_slash,
      splitSlash_join_append (a :: as) ('/' :: c) hne (fun s hs => (hnorm s hs).2.2.2),
      splitSlash_cons_slash, splitSlash_single c hc4, cleanSegsAux_drop_nil,
      cleanSegsAux_no_special ((a :: as) ++ [] :: [c]) [] true (by
        intro s hs
        rcases List.mem_append.mp hs with h | h
        · exact (hnorm s h).2.2.1
        · rcases List.mem_cons.mp h with h | h
          · subst h; simp
          · rw [List.mem_singleton.mp h]; exact hc3)]
    have hfilter : (((a :: as) ++ [] :: [c]).filter (fun s => decide (s ≠ [] ∧ s ≠ ['.'])))
        = (a :: as) ++ [c] := by
      rw [List.filter_append, filter_of_normal (a :: as) hnorm]
      simp [List.filter_cons, hc1, hc2]
    rw [hfilter]
    simp

/-- The filename segment contributed by one entity: appending `".json"`
to the sanitized base of its name always yields a single normal path
segment appended under the category directory. -/
theorem fileSeg_exists (n : List Char) :
    ∃ cf, NormalSeg cf ∧
      ∀ (segs : List (List Char)), (∀ x ∈ segs, NormalSeg x) →
        joinChars ('/' :: joinSlash segs) (baseChars n ++ ".json".toList)
          = '/' :: joinSlash (segs ++ [cf]) := by
  rcases baseChars_cases n with h | h
  · refine ⟨".json".toList, jsonSeg_normal [] (by intro c hc; cases hc), ?_⟩
    intro segs hsegs
    rw [h]
    exact joinChars_seg_slash segs ".json".toList hsegs
      (jsonSeg_normal [] (by intro c hc; cases hc))
  · exact ⟨baseChars n ++ ".json".toList, jsonSeg_normal _ h,
      fun segs hsegs => joinChars_seg segs _ hsegs (jsonSeg_normal _ h)⟩

/-! ## String-level bridges -/

theorem toList_mk (l : List Char) : (String.mk l).toList = l := rfl

theorem mk_toList (s : String) : String.mk s.toList = s := rfl

theorem toList_append (s t : String) : (s ++ t).toList = s.toList ++ t.toList :=
  String.data_append s t

theorem mk_inj {l1 l2 : List Char} (h : String.mk l1 = String.mk l2) : l1 = l2 :=
  congrArg String.toList h

theorem str_ne_of_toList_ne {s t : String} (h : s.toList ≠ t.toList) : s ≠ t :=
  fun he => h (congrArg String.toList he)

theorem isAbs_filepathAbs (cwd p : String) (hcwd : isAbsChars cwd.toList = true) :
    isAbsChars (filepathAbs cwd p).toList = true := by
  obtain ⟨t, ht⟩ := isAbsChars_shape hcwd
  unfold filepathAbs
  by_cases h : isAbsChars p.toList = true
  · rw [if_pos h]
    exact isAbs_cleanChars _ h
  · rw [if_neg h]
    show isAbsChars (joinChars cwd.toList p.toList) = true
    rw [ht]
    have hne : ('/' :: t : List Char) ≠ [] := by simp
    unfold joinChars
    rw [if_neg hne]
    exact isAbs_cleanChars _ (by simp [isAbsChars])

theorem computeTarget_IsCleanAbs {w : World} {td : String}
    (hcwd : isAbsChars w.cwd.toList = true)
    (h : computeTargetPath w = .ok td) : IsCleanAbs td := by
  unfold computeTargetPath at h
  split at h
  · simp at h
  · rename_i t hexp
    simp only [Except.ok.injEq] at h
    subst h
    constructor
    · exact isAbs_cleanChars _ (isAbs_filepathAbs w.cwd t hcwd)
    · show cleanChars (cleanChars (filepathAbs w.cwd t).toList)
        = cleanChars (filepathAbs w.cwd t).toList
      exact cleanChars_idem_rooted _ (isAbs_filepathAbs w.cwd t hcwd)

theorem resolve_inversion {w : World} {fs0 : FS} {td : String}
    (h : resolveTargetDirForExport w = .ok (fs0, td)) :
    computeTargetPath w = .ok td ∧ osMkdirAll w w.fs td = .ok fs0 ∧
      fsIsDir fs0 td = true ∧ dirEntries fs0 td = [] := by
  unfold resolveTargetDirForExport at h
  split at h
  · simp at h
  · rename_i td' hct
    split at h
    · simp at h
    · rename_i fs' hmk
      split at h
      · simp at h
      · rename_i entries hrd
        split at h
        · simp at h
        · rename_i hlen
          simp only [Except.ok.injEq, Prod.mk.injEq] at h
          obtain ⟨h1, h2⟩ := h
          rw [h2] at hct
          rw [h1, h2] at hmk
          rw [h1, h2] at hrd
          have hent : entries = [] := by
            cases entries with
            | nil => rfl
            | cons a as => simp at hlen
          have hdir : fsIsDir fs0 td = true := by
            by_contra hdir
            unfold osReadDir at hrd
            rw [if_neg hdir] at hrd
            cases hrd
          refine ⟨hct, hmk, hdir, ?_⟩
          unfold osReadDir at hrd
          rw [if_pos hdir] at hrd
          simp only [Except.ok.injEq] at hrd
          rw [hrd, hent]

/-! ## Lemmas about the filesystem operations -/

theorem lookupFile_setFile_self (l : List (String × String)) (p c : String) :
    lookupFile (setFile l p c) p = some c := by
  induction l with
  | nil => simp [setFile, lookupFile]
  | cons x rest ih =>
    obtain ⟨q, d⟩ := x
    by_cases h : q = p
    · simp [setFile, h, lookupFile]
    · simp [setFile, h, lookupFile, ih]

theorem lookupFile_setFile_ne (l : List (String × String)) (p c q : String) (h : ¬ p = q) :
    lookupFile (setFile l p c) q = lookupFile l q := by
  induction l with
  | nil => simp [setFile, lookupFile, h]
  | cons x rest ih =>
    obtain ⟨r, d⟩ := x
    by_cases hr : r = p
    · subst hr
      simp [setFile, lookupFile, h]
    · simp [setFile, hr, lookupFile, ih]

theorem mem_keys_setFile (l : List (String × String)) (p c q : String) :
    q ∈ (setFile l p c).map Prod.fst ↔ q = p ∨ q ∈ l.map Prod.fst := by
  induction l with
  | nil => simp [setFile]
  | cons x rest ih =>
    obtain ⟨r, d⟩ := x
    by_cases hr : r = p
    · subst hr
      simp [setFile]
    · simp [setFile, hr, ih]
      tauto

theorem mem_setFile (l : List (String × String)) (p c : String) (x : String × String)
    (h : x ∈ setFile l p c) : x ∈ l ∨ x.1 = p := by
  induction l with
  | nil =>
    simp [setFile] at h
    subst h
    simp
  | cons y rest ih =>
    obtain ⟨r, d⟩ := y
    by_cases hr : r = p
    · subst hr
      simp [setFile] at h
      rcases h with h | h
      · right; rw [h]
      · left; simp [h]
    · simp [setFile, hr] at h
      rcases h with h | h
      · left; simp [h]
      · rcases ih h with h' | h'
        · left; simp [h']
        · right; exact h'

theorem osWriteFile_ok {w : World} {fs : FS} {p content : String} {fs' : FS}
    (h : osWriteFile w fs p content = .ok fs') :
    fs' = { fs with files := setFile fs.files p content } := by
  unfold osWriteFile at h
  split at h
  · cases h
  · split at h
    · cases h
    · split at h
      · cases h
      · simp only [Except.ok.injEq] at h
        exact h.symm

theorem osWriteFile_succeeds (w : World) (fs : FS) (p content : String)
    (h1 : w.writeFails.contains p = false) (h2 : fsIsDir fs p = false)
    (h3 : fsIsDir fs (parentPath p) = true) :
    osWriteFile w fs p content = .ok { fs with files := setFile fs.files p content } := by
  unfold osWriteFile
  rw [h1, h2, h3]
  simp

theorem osMkdir_succeeds (w : World) (fs : FS) (p : String)
    (h1 : fsIsDir fs p = false) (h2 : fsIsFile fs p = false)
    (h3 : w.mkdirFails.contains p = false) (h4 : fsIsDir fs (parentPath p) = true) :
    osMkdir w fs p = .ok { fs with dirs := p :: fs.dirs } := by
  unfold osMkdir
  rw [h1, h2, h3, h4]
  simp

theorem writeJSON_ok_shape {w : World} {fs : FS} {dir n : String} {v : JSONValue} {fs' : FS}
    (h : writeJSONConfigFile w fs dir n v = .ok fs') :
    fs' = { fs with
      files := setFile fs.files (entityFilePath dir n) (marshalIndent v) } := by
  unfold writeJSONConfigFile at h
  split at h
  · cases h
  · rename_i fs'' hw
    simp only [Except.ok.injEq] at h
    subst h
    exact osWriteFile_ok hw

theorem writeJSON_succeeds (w : World) (fs : FS) (dir n : String) (v : JSONValue)
    (h1 : w.writeFails.contains (entityFilePath dir n) = false)
    (h2 : fsIsDir fs (entityFilePath dir n) = false)
    (h3 : fsIsDir fs (parentPath (entityFilePath dir n)) = true) :
    writeJSONConfigFile w fs dir n v = .ok { fs with
      files := setFile fs.files (entityFilePath dir n) (marshalIndent v) } := by
  unfold writeJSONConfigFile
  rw [osWriteFile_succeeds w fs _ _ h1 h2 h3]

theorem writeEntities_append_fail (w : World) (dir : String) (e : Entity) (err : GoError)
    (es2 : List Entity) :
    ∀ (es1 : List Entity) (fs fs1 : FS),
      writeEntities w dir es1 fs = (fs1, none) →
      writeJSONConfigFile w fs1 dir e.Name e.value = .error err →
      writeEntities w dir (es1 ++ e :: es2) fs = (fs1, some err) := by
  intro es1
  induction es1 with
  | nil =>
    intro fs fs1 h1 h2
    simp only [writeEntities, Prod.mk.injEq] at h1
    have hfs : fs = fs1 := by simpa using h1
    subst hfs
    simp only [List.nil_append, writeEntities, h2]
  | cons e1 rest ih =>
    intro fs fs1 h1 h2
    cases hw : writeJSONConfigFile w fs dir e1.Name e1.value with
    | error er =>
      simp only [writeEntities, hw] at h1
      simp at h1
    | ok fs' =>
      simp only [writeEntities, hw] at h1
      rw [List.cons_append]
      simp only [writeEntities, hw]
      exact ih fs' fs1 h1 h2

theorem writeEntities_file_mono (w : World) (dir : String) :
    ∀ (es : List Entity) (fs fs' : FS) (res : Option GoError) (p : String),
      writeEntities w dir es fs = (fs', res) → fsIsFile fs p = true → fsIsFile fs' p = true := by
  intro es
  induction es with
  | nil =>
    intro fs fs' res p h hp
    simp only [writeEntities, Prod.mk.injEq] at h
    rw [← h.1]
    exact hp
  | cons e rest ih =>
    intro fs fs' res p h hp
    cases hw : writeJSONConfigFile w fs dir e.Name e.value with
    | error er =>
      simp only [writeEntities, hw, Prod.mk.injEq] at h
      rw [← h.1]
      exact hp
    | ok fs1 =>
      simp only [writeEntities, hw] at h
      refine ih fs1 fs' res p h ?_
      rw [writeJSON_ok_shape hw]
      simp only [fsIsFile] at hp ⊢
      have hm : p ∈ fs.files.map Prod.fst := by simpa using hp
      have hx : p ∈ (setFile fs.files (entityFilePath dir e.Name)
          (marshalIndent e.value)).map Prod.fst :=
        (mem_keys_setFile _ _ _ _).mpr (Or.inr hm)
      simpa using hx

theorem fsIsDir_iff (fs : FS) (p : String) : fsIsDir fs p = true ↔ p ∈ fs.dirs := by
  simp [fsIsDir]

theorem fsIsFile_iff (fs : FS) (p : String) :
    fsIsFile fs p = true ↔ p ∈ fs.files.map Prod.fst := by
  simp [fsIsFile]

theorem not_dir_child_of_empty {fs : FS} {td d : String}
    (hemp : dirEntries fs td = []) (hpar : parentPath d = td) (hne : d ≠ td) :
    fsIsDir fs d = false := by
  rw [Bool.eq_false_iff]
  intro h
  have hd : d ∈ fs.dirs := (fsIsDir_iff fs d).mp h
  have hmem : d ∈ dirEntries fs td := by
    unfold dirEntries
    refine List.mem_append.mpr (Or.inl ?_)
    refine List.mem_filter.mpr ⟨hd, ?_⟩
    simp [hpar, hne]
  rw [hemp] at hmem
  cases hmem

theorem not_file_child_of_empty {fs : FS} {td f : String}
    (hemp : dirEntries fs td = []) (hpar : parentPath f = td) :
    fsIsFile fs f = false := by
  rw [Bool.eq_false_iff]
  intro h
  have hf : f ∈ fs.files.map Prod.fst := (fsIsFile_iff fs f).mp h
  have hmem : f ∈ dirEntries fs td := by
    unfold dirEntries
    refine List.mem_append.mpr (Or.inr ?_)
    refine List.mem_filter.mpr ⟨hf, ?_⟩
    simp [hpar]
  rw [hemp] at hmem
  cases hmem

theorem joinSlash_ne_nil (segs : List (List Char)) (hne : segs ≠ [])
    (hnorm : ∀ x ∈ segs, NormalSeg x) : joinSlash segs ≠ [] := by
  obtain ⟨ch, cs, hrev, _⟩ := joinSlash_rev_head segs hne
    (fun x hx => ⟨(hnorm x hx).1, (hnorm x hx).2.2.2⟩)
  intro h
  rw [h] at hrev
  cases hrev

theorem joinSlash_inj_normal (l1 l2 : List (List Char))
    (hn1 : ∀ s ∈ l1, NormalSeg s) (hn2 : ∀ s ∈ l2, NormalSeg s)
    (h : joinSlash l1 = joinSlash l2) : l1 = l2 := by
  cases l1 with
  | nil =>
    cases l2 with
    | nil => rfl
    | cons b bs =>
      exact absurd h.symm (joinSlash_ne_nil (b :: bs) (by simp) hn2)
  | cons a as =>
    cases l2 with
    | nil => exact absurd h (joinSlash_ne_nil (a :: as) (by simp) hn1)
    | cons b bs =>
      exact joinSlash_inj (a :: as) (b :: bs) (by simp) (by simp)
        (fun s hs => (hn1 s hs).2.2.2) (fun s hs => (hn2 s hs).2.2.2) h

theorem join_str_ne {td1 td2 : String} {l1 l2 : List (List Char)}
    (h1 : td1.toList = '/' :: joinSlash l1) (h2 : td2.toList = '/' :: joinSlash l2)
    (hn1 : ∀ s ∈ l1, NormalSeg s) (hn2 : ∀ s ∈ l2, NormalSeg s)
    (hne : l1 ≠ l2) : td1 ≠ td2 := by
  intro h
  apply hne
  have hl := congrArg String.toList h
  rw [h1, h2] at hl
  exact joinSlash_inj_normal l1 l2 hn1 hn2 (by injection hl)

theorem join_seg_str (td : String) (segs : List (List Char))
    (hshape : td.toList = '/' :: joinSlash segs) (hnorm : ∀ x ∈ segs, NormalSeg x)
    (c : String) (hc : NormalSeg c.toList) :
    (filepathJoin td c).toList = '/' :: joinSlash (segs ++ [c.toList]) ∧
      parentPath (filepathJoin td c) = td := by
  have h1 : (filepathJoin td c).toList = '/' :: joinSlash (segs ++ [c.toList]) := by
    show joinChars td.toList c.toList = _
    rw [hshape]
    exact joinChars_seg segs c.toList hnorm hc
  refine ⟨h1, ?_⟩
  show String.mk (parentChars (filepathJoin td c).toList) = td
  rw [h1, parentChars_join segs c.toList
    (fun x hx => ⟨(hnorm x hx).1, (hnorm x hx).2.2.2⟩) hc.2.2.2, ← hshape]
  exact mk_toList td

theorem entityFilePath_shape (dir : String) (segs : List (List Char))
    (hshape : dir.toList = '/' :: joinSlash segs) (hnorm : ∀ x ∈ segs, NormalSeg x)
    (n : String) :
    ∃ cf, NormalSeg cf ∧
      (entityFilePath dir n).toList = '/' :: joinSlash (segs ++ [cf]) ∧
      parentPath (entityFilePath dir n) = dir := by
  obtain ⟨cf, hcf, hjoin⟩ := fileSeg_exists n.toList
  have harg : (filepathBase n ++ ".json").toList = baseChars n.toList ++ ".json".toList := by
    rw [toList_append]
    rfl
  have h1 : (entityFilePath dir n).toList = '/' :: joinSlash (segs ++ [cf]) := by
    show joinChars dir.toList (filepathBase n ++ ".json").toList = _
    rw [harg, hshape]
    exact hjoin segs hnorm
  refine ⟨cf, hcf, h1, ?_⟩
  show String.mk (parentChars (entityFilePath dir n).toList) = dir
  rw [h1, parentChars_join segs cf
    (fun x hx => ⟨(hnorm x hx).1, (hnorm x hx).2.2.2⟩) hcf.2.2.2, ← hshape]
  exact mk_toList dir

theorem contains_cons_false {l : List String} {d p : String}
    (h1 : ¬ p = d) (h2 : l.contains p = false) : (d :: l).contains p = false := by
  rw [Bool.eq_false_iff] at h2 ⊢
  intro h
  rcases List.mem_cons.mp (by simpa using h) with hc | hc
  · exact h1 hc
  · exact h2 (by simpa using hc)

theorem contains_cons_true_head {l : List String} {d : String} :
    (d :: l).contains d = true := by simp

theorem contains_cons_true_tail {l : List String} {d p : String}
    (h : l.contains p = true) : (d :: l).contains p = true := by
  have : p ∈ l := by simpa using h
  simp [this]

theorem segs_ne_of_length {l1 l2 : List (List Char)} (h : l1.length ≠ l2.length) :
    l1 ≠ l2 :=
  fun he => h (congrArg List.length he)

theorem toList_ne_of_ne_str {s : String} (h : s ≠ "") : s.toList ≠ [] :=
  fun he => h (by rw [← mk_toList s, he])

/-- Common consequences of a successful target resolution in an
environment with an absolute working directory and no injected
directory-creation failures: the target is a clean absolute path with
normal segments, exists and is empty, and both fixed category
subdirectories are its direct children whose creation succeeds. -/
theorem export_setup (w : World) (fs0 : FS) (td : String)
    (hcwd : isAbsChars w.cwd.toList = true)
    (hres : resolveTargetDirForExport w = .ok (fs0, td))
    (hmf : w.mkdirFails = []) :
    ∃ segs, td.toList = '/' :: joinSlash segs ∧ (∀ x ∈ segs, NormalSeg x) ∧
      fsIsDir fs0 td = true ∧ dirEntries fs0 td = [] ∧
      (filepathJoin td exportToolGroupsDir).toList
        = '/' :: joinSlash (segs ++ [exportToolGroupsDir.toList]) ∧
      parentPath (filepathJoin td exportToolGroupsDir) = td ∧
      (filepathJoin td exportMcpServersDir).toList
        = '/' :: joinSlash (segs ++ [exportMcpServersDir.toList]) ∧
      parentPath (filepathJoin td exportMcpServersDir) = td ∧
      osMkdir w fs0 (filepathJoin td exportToolGroupsDir)
        = .ok ⟨filepathJoin td exportToolGroupsDir :: fs0.dirs, fs0.files⟩ ∧
      osMkdir w ⟨filepathJoin td exportToolGroupsDir :: fs0.dirs, fs0.files⟩
          (filepathJoin td exportMcpServersDir)
        = .ok ⟨filepathJoin td exportMcpServersDir ::
            filepathJoin td exportToolGroupsDir :: fs0.dirs, fs0.files⟩ := by
  obtain ⟨hct, hmk, hdir, hemp⟩ := resolve_inversion hres
  obtain ⟨segs, hshape, hnorm⟩ := (computeTarget_IsCleanAbs hcwd hct).shape
  have hgn : NormalSeg exportToolGroupsDir.toList := by decide
  have hsn : NormalSeg exportMcpServersDir.toList := by decide
  obtain ⟨hjg, hpg⟩ := join_seg_str td segs hshape hnorm exportToolGroupsDir hgn
  obtain ⟨hjs, hps⟩ := join_seg_str td segs hshape hnorm exportMcpServersDir hsn
  have hng : ∀ x ∈ segs ++ [exportToolGroupsDir.toList], NormalSeg x := by
    intro x hx
    rcases List.mem_append.mp hx with h | h
    · exact hnorm x h
    · rw [List.mem_singleton.mp h]; exact hgn
  have hns : ∀ x ∈ segs ++ [exportMcpServersDir.toList], NormalSeg x := by
    intro x hx
    rcases List.mem_append.mp hx with h | h
    · exact hnorm x h
    · rw [List.mem_singleton.mp h]; exact hsn
  have hgne : filepathJoin td exportToolGroupsDir ≠ td :=
    join_str_ne hjg hshape hng hnorm (segs_ne_of_length (by simp))
  have hsne : filepathJoin td exportMcpServersDir ≠ td :=
    join_str_ne hjs hshape hns hnorm (segs_ne_of_length (by simp))
  have hsg : filepathJoin td exportMcpServersDir ≠ filepathJoin td exportToolGroupsDir := by
    refine join_str_ne hjs hjg hns hng ?_
    intro h
    have := List.append_cancel_left h
    simp only [List.cons.injEq, and_true] at this
    exact absurd this (by decide)
  have hmkg : osMkdir w fs0 (filepathJoin td exportToolGroupsDir)
      = .ok ⟨filepathJoin td exportToolGroupsDir :: fs0.dirs, fs0.files⟩ := by
    have := osMkdir_succeeds w fs0 (filepathJoin td exportToolGroupsDir)
      (not_dir_child_of_empty hemp hpg hgne)
      (not_file_child_of_empty hemp hpg)
      (by rw [hmf]; rfl)
      (by rw [hpg]; exact hdir)
    exact this
  refine ⟨segs, hshape, hnorm, hdir, hemp, hjg, hpg, hjs, hps, hmkg, ?_⟩
  have hd1 : fsIsDir ⟨filepathJoin td exportToolGroupsDir :: fs0.dirs, fs0.files⟩
      (filepathJoin td exportMcpServersDir) = false := by
    show (filepathJoin td exportToolGroupsDir :: fs0.dirs).contains _ = false
    exact contains_cons_false hsg (not_dir_child_of_empty hemp hps hsne)
  have hf1 : fsIsFile ⟨filepathJoin td exportToolGroupsDir :: fs0.dirs, fs0.files⟩
      (filepathJoin td exportMcpServersDir) = false := by
    show fsIsFile ⟨fs0.dirs, fs0.files⟩ (filepathJoin td exportMcpServersDir) = false
    have h0 : fsIsFile fs0 (filepathJoin td exportMcpServersDir) = false :=
      not_file_child_of_empty hemp hps
    exact h0
  have hp1 : fsIsDir ⟨filepathJoin td exportToolGroupsDir :: fs0.dirs, fs0.files⟩
      (parentPath (filepathJoin td exportMcpServersDir)) = true := by
    rw [hps]
    show (filepathJoin td exportToolGroupsDir :: fs0.dirs).contains td = true
    exact contains_cons_true_tail hdir
  have := osMkdir_succeeds w ⟨filepathJoin td exportToolGroupsDir :: fs0.dirs, fs0.files⟩
    (filepathJoin td exportMcpServersDir) hd1 hf1 (by rw [hmf]; rfl) hp1
  exact this

theorem osMkdir_ok {w : World} {fs : FS} {p : String} {fs' : FS}
    (h : osMkdir w fs p = .ok fs') : fs' = ⟨p :: fs.dirs, fs.files⟩ := by
  unfold osMkdir at h
  split at h
  · cases h
  · split at h
    · cases h
    · split at h
      · cases h
      · simp only [Except.ok.injEq] at h
        exact h.symm

/-- A path in fully normalized absolute form: a leading slash followed
by segments that are nonempty and contain no `/`, `.` or `..`. -/
def lexNormalChars (p : List Char) : Bool :=
  match p with
  | [] => false
  | c :: rest =>
    c == '/' && (rest.isEmpty || (splitSlash rest).all (fun s => decide (NormalSeg s)))

theorem lexNormal_of_shape (td : String) (segs : List (List Char))
    (hshape : td.toList = '/' :: joinSlash segs) (hnorm : ∀ x ∈ segs, NormalSeg x) :
    lexNormalChars td.toList = true := by
  rw [hshape]
  unfold lexNormalChars
  cases segs with
  | nil => simp [joinSlash]
  | cons a as =>
    simp only [beq_self_eq_true, Bool.true_and, Bool.or_eq_true]
    right
    rw [splitSlash_joinSlash (a :: as) (by simp) (fun s hs => (hnorm s hs).2.2.2)]
    exact List.all_eq_true.mpr (fun s hs => decide_eq_true (hnorm s hs))

/-! ## The claims -/

/-- C10: for every entity name, including names containing path
separators or `..` components such as `"../../etc/passwd"`, the file
written by `writeJSONConfigFile` lies directly inside the given
category subdirectory: only the final path component (`filepath.Base`)
of the name reaches the filename, so the parent directory of the
written path is the category subdirectory itself, and a successful
write changes only the file at that path. -/
theorem c10_no_escape (entityDir entityName : String) (h : IsCleanAbs entityDir) :
    parentPath (entityFilePath entityDir entityName) = entityDir ∧
    ∀ (w : World) (fs : FS) (v : JSONValue) (fs' : FS),
      writeJSONConfigFile w fs entityDir entityName v = .ok fs' →
      fs' = ⟨fs.dirs,
        setFile fs.files (entityFilePath entityDir entityName) (marshalIndent v)⟩ := by
  obtain ⟨segs, hshape, hnorm⟩ := h.shape
  obtain ⟨cf, hcf, h1, h2⟩ := entityFilePath_shape entityDir segs hshape hnorm entityName
  refine ⟨h2, ?_⟩
  intro w fs v fs' hw
  exact writeJSON_ok_shape hw

/-- Witness for C10 at a directory-traversal name. -/
theorem c10_no_escape_witness :
    IsCleanAbs "/export/servers" ∧
    parentPath (entityFilePath "/export/servers" "../../etc/passwd") = "/export/servers" :=
  ⟨by decide, (c10_no_escape "/export/servers" "../../etc/passwd" (by decide)).1⟩

/-- C9: a successful `writeJSONConfigFile` leaves at
`<subdir>/<Base(Name)>.json` exactly the two-space-indented JSON
serialization of the entity, and the bytes depend only on the entity
value: any two successful writes of the same entity (in different
runs, directories, or filesystems) produce identical file content. -/
theorem c9_serialization_deterministic (w1 w2 : World) (fs1 fs2 : FS)
    (d1 d2 n1 n2 : String) (v : JSONValue) (fs1' fs2' : FS)
    (h1 : writeJSONConfigFile w1 fs1 d1 n1 v = .ok fs1')
    (h2 : writeJSONConfigFile w2 fs2 d2 n2 v = .ok fs2') :
    fsFileContent fs1' (entityFilePath d1 n1) = some (marshalIndent v) ∧
    fsFileContent fs2' (entityFilePath d2 n2) = some (marshalIndent v) ∧
    fsFileContent fs1' (entityFilePath d1 n1)
      = fsFileContent fs2' (entityFilePath d2 n2) := by
  have e1 := writeJSON_ok_shape h1
  have e2 := writeJSON_ok_shape h2
  subst e1
  subst e2
  refine ⟨?_, ?_, ?_⟩ <;>
    simp [fsFileContent, lookupFile_setFile_self]

/-- The entity value used in the C9 witness. -/
def c9Value : JSONValue := .obj [("name", .str "prod-group")]

/-- A benign environment used by several witnesses. -/
def benignWorld : World where
  exportCmdTargetDir := "/export"
  homeDir := .ok "/home/u"
  cwd := "/"
  fs := ⟨["/"], []⟩
  mkdirFails := []
  writeFails := []
  groupsResult := .ok []
  serversResult := .ok []

/-- Witness for C9: two writes of the `prod-group` entity into two
different group directories yield the same bytes. -/
theorem c9_serialization_deterministic_witness :
    fsFileContent ⟨["/t/groups", "/t"],
        [(entityFilePath "/t/groups" "prod-group", marshalIndent c9Value)]⟩
      (entityFilePath "/t/groups" "prod-group") = some (marshalIndent c9Value) ∧
    fsFileContent ⟨["/u/groups", "/u"],
        [(entityFilePath "/u/groups" "prod-group", marshalIndent c9Value)]⟩
      (entityFilePath "/u/groups" "prod-group") = some (marshalIndent c9Value) ∧
    fsFileContent ⟨["/t/groups", "/t"],
        [(entityFilePath "/t/groups" "prod-group", marshalIndent c9Value)]⟩
      (entityFilePath "/t/groups" "prod-group")
      = fsFileContent ⟨["/u/groups", "/u"],
        [(entityFilePath "/u/groups" "prod-group", marshalIndent c9Value)]⟩
      (entityFilePath "/u/groups" "prod-group") :=
  c9_serialization_deterministic benignWorld benignWorld
    ⟨["/t/groups", "/t"], []⟩ ⟨["/u/groups", "/u"], []⟩
    "/t/groups" "/u/groups" "prod-group" "prod-group" c9Value _ _
    (by rfl) (by rfl)

/-- C7: for every input (in particular those with `.`/`..` segments or
redundant separators), whenever resolution computes a target path the
result is a lexically normalized absolute path: it starts with `/` and
contains no empty, `.` or `..` segments (the normalization is purely
lexical; the model does no symlink resolution). -/
theorem c7_resolution_normalized (w : World) (hcwd : isAbsChars w.cwd.toList = true) :
    (∀ td, computeTargetPath w = .ok td → lexNormalChars td.toList = true) ∧
    (∀ fs0 td, resolveTargetDirForExport w = .ok (fs0, td) →
      lexNormalChars td.toList = true) := by
  constructor
  · intro td h
    obtain ⟨segs, hshape, hnorm⟩ := (computeTarget_IsCleanAbs hcwd h).shape
    exact lexNormal_of_shape td segs hshape hnorm
  · intro fs0 td h
    obtain ⟨hct, _, _, _⟩ := resolve_inversion h
    obtain ⟨segs, hshape, hnorm⟩ := (computeTarget_IsCleanAbs hcwd hct).shape
    exact lexNormal_of_shape td segs hshape hnorm

/-- The world of the C7 witness: a flag value full of `.`/`..`
segments and doubled separators. -/
def c7World : World :=
  { benignWorld with exportCmdTargetDir := "/a/./b/../c//d" }

/-- Witness for C7: the dirty input resolves to `/a/c/d`, which is in
normal form. -/
theorem c7_resolution_normalized_witness :
    computeTargetPath c7World = .ok "/a/c/d" ∧
    lexNormalChars (String.toList "/a/c/d") = true :=
  ⟨by decide,
    (c7_resolution_normalized c7World (by decide)).1 "/a/c/d" (by decide)⟩

/-- C2: when the computed target directory already exists and has at
least one entry, resolution fails with the not-empty error naming the
directory, and the run leaves the filesystem exactly as it was (the
existing-directory branch of `os.MkdirAll` performs no write). -/
theorem c2_nonempty_target_rejected (w : World) (td : String)
    (hct : computeTargetPath w = .ok td)
    (hdir : fsIsDir w.fs td = true)
    (hne : dirEntries w.fs td ≠ []) :
    resolveTargetDirForExport w
      = .error ("target directory " ++ td ++ " is not empty") ∧
    runExport w = (w.fs, [],
      some ("failed to resolve target directory for export: "
        ++ ("target directory " ++ td ++ " is not empty"))) := by
  have hmk : osMkdirAll w w.fs td = .ok w.fs := by
    unfold osMkdirAll
    rw [hdir]
    simp
  have hrd : osReadDir w.fs td = .ok (dirEntries w.fs td) := by
    unfold osReadDir
    rw [hdir]
    simp
  have hlen : (dirEntries w.fs td).length > 0 := List.length_pos.mpr hne
  have hresolve : resolveTargetDirForExport w
      = .error ("target directory " ++ td ++ " is not empty") := by
    unfold resolveTargetDirForExport
    rw [hct]
    simp only [hmk, hrd]
    rw [if_pos hlen]
  refine ⟨hresolve, ?_⟩
  simp only [runExport, hresolve]

/-- The world of the C2 witness: the target `/export` already contains
a file. -/
def c2World : World :=
  { benignWorld with fs := ⟨["/export", "/"], [("/export/old.txt", "stale")]⟩ }

/-- Witness for C2 at a concrete non-empty target. -/
theorem c2_nonempty_target_rejected_witness :
    resolveTargetDirForExport c2World
      = .error ("target directory " ++ "/export" ++ " is not empty") ∧
    runExport c2World = (c2World.fs, [],
      some ("failed to resolve target directory for export: "
        ++ ("target directory " ++ "/export" ++ " is not empty"))) := by
  have h := c2_nonempty_target_rejected c2World "/export" (by decide) (by decide)
    (by decide)
  exact h

/-- The world of the C3 counterexample: the flag is `~foo` (a
`~`-prefixed path that requests no expansion) and the home-directory
lookup fails. -/
def c3World : World :=
  { benignWorld with
      exportCmdTargetDir := "~foo"
      homeDir := .error "user home lookup failed" }

/-- C3 counterexample: the claim says a home-lookup failure causes a
resolution error only when an expansion is actually requested (input
`~` or `~/...`).  For input `~foo` no expansion is requested, yet
resolution fails with the home-lookup error, because the code performs
the `os.UserHomeDir` call for every `~`-prefixed input before deciding
whether to expand. -/
theorem c3_counterexample :
    goStartsWith "~foo" "~" = true ∧ ("~foo" : String) ≠ "~" ∧
    goStartsWith "~foo" "~/" = false ∧
    computeTargetPath c3World = .error "user home lookup failed" ∧
    resolveTargetDirForExport c3World = .error "user home lookup failed" :=
  ⟨by decide, by decide, by decide, by decide, by decide⟩

/-- C3 (amended): a `~`-prefixed input that is neither `~` nor
`~/...` is passed through the expansion step unchanged whenever the
home lookup succeeds, and is then handled like any ordinary path; but
the home-directory lookup runs for every `~`-prefixed input, so a
lookup failure aborts resolution even when no expansion is requested. -/
theorem c3_tilde_passthrough (w : World)
    (hpre : goStartsWith w.exportCmdTargetDir "~" = true)
    (hne1 : w.exportCmdTargetDir ≠ "~")
    (hne2 : goStartsWith w.exportCmdTargetDir "~/" = false) :
    (∀ home, w.homeDir = .ok home →
      expandTilde w w.exportCmdTargetDir = .ok w.exportCmdTargetDir ∧
      computeTargetPath w
        = .ok (filepathClean (filepathAbs w.cwd w.exportCmdTargetDir))) ∧
    (∀ err, w.homeDir = .error err → computeTargetPath w = .error err) := by
  have hne0 : w.exportCmdTargetDir ≠ "" := by
    intro h
    rw [h] at hpre
    exact absurd hpre (by decide)
  constructor
  · intro home hh
    have hexp : expandTilde w w.exportCmdTargetDir = .ok w.exportCmdTargetDir := by
      unfold expandTilde
      rw [if_pos hpre, hh]
      simp [hne1, hne2]
    refine ⟨hexp, ?_⟩
    unfold computeTargetPath
    rw [if_neg hne0, hexp]
  · intro err hh
    have hexp : expandTilde w w.exportCmdTargetDir = .error err := by
      unfold expandTilde
      rw [if_pos hpre, hh]
    unfold computeTargetPath
    rw [if_neg hne0, hexp]

/-- The world of the C3 amended witness: `~foo` with a working home
directory. -/
def c3HomeWorld : World := { benignWorld with exportCmdTargetDir := "~foo" }

/-- Witness for the amended C3: with a working home lookup `~foo`
passes through untouched; with a failing one resolution errors. -/
theorem c3_tilde_passthrough_witness :
    expandTilde c3HomeWorld "~foo" = .ok "~foo" ∧
    computeTargetPath c3HomeWorld
      = .ok (filepathClean (filepathAbs "/" "~foo")) ∧
    computeTargetPath c3World = .error "user home lookup failed" := by
  have h1 := (c3_tilde_passthrough c3HomeWorld (by decide) (by decide) (by decide)).1
    "/home/u" rfl
  have h2 := (c3_tilde_passthrough c3World (by decide) (by decide) (by decide)).2
    "user home lookup failed" (by rfl)
  exact ⟨h1.1, h1.2, h2⟩

/-- C4: the input `~` resolves to exactly the user's home directory,
and an input `~/rest` resolves to the cleaning of the verbatim
concatenation `home ++ "/" ++ rest` (the code's `filepath.Join` cleans
eagerly, but since the later `Abs`/`Clean` steps are idempotent on the
rooted result, the final path equals normalizing the verbatim
concatenation). -/
theorem c4_tilde_resolution (w1 w2 : World) (home rest : String)
    (h1i : w1.exportCmdTargetDir = "~") (h1h : w1.homeDir = .ok home)
    (hclean : IsCleanAbs home)
    (h2i : w2.exportCmdTargetDir = "~/" ++ rest) (h2h : w2.homeDir = .ok home) :
    computeTargetPath w1 = .ok home ∧
    computeTargetPath w2 = .ok (filepathClean (home ++ "/" ++ rest)) ∧
    (∀ fs d, resolveTargetDirForExport w1 = .ok (fs, d) → d = home) ∧
    (∀ fs d, resolveTargetDirForExport w2 = .ok (fs, d) →
      d = filepathClean (home ++ "/" ++ rest)) := by
  obtain ⟨t, ht⟩ := isAbsChars_shape hclean.1
  have hch : filepathClean home = home := by
    show String.mk (cleanChars home.toList) = home
    rw [hclean.2]
    exact mk_toList home
  have hp1 : computeTargetPath w1 = .ok home := by
    have hne0 : w1.exportCmdTargetDir ≠ "" := by rw [h1i]; decide
    have hexp : expandTilde w1 "~" = .ok home := by
      unfold expandTilde
      rw [if_pos (show goStartsWith "~" "~" = true by decide), h1h]
      simp
    have habs : filepathAbs w1.cwd home = home := by
      unfold filepathAbs
      rw [if_pos hclean.1]
      exact hch
    unfold computeTargetPath
    rw [if_neg hne0, h1i, hexp]
    show Except.ok (filepathClean (filepathAbs w1.cwd home)) = Except.ok home
    rw [habs, hch]
  have hlist : ("~/" ++ rest).toList = '~' :: '/' :: rest.toList := by
    rw [toList_append]
    rfl
  have hX : (home ++ "/" ++ rest).toList = home.toList ++ '/' :: rest.toList := by
    rw [toList_append, toList_append]
    simp
  have hrootX : isAbsChars (home.toList ++ '/' :: rest.toList) = true := by
    rw [ht]
    simp [isAbsChars]
  have hp2 : computeTargetPath w2 = .ok (filepathClean (home ++ "/" ++ rest)) := by
    have hne0 : w2.exportCmdTargetDir ≠ "" := by
      rw [h2i]
      intro h
      have h' := congrArg String.toList h
      rw [hlist] at h'
      simp at h'
    have hpre : goStartsWith ("~/" ++ rest) "~" = true := by
      unfold goStartsWith
      rw [hlist]
      simp [startsWithChars]
    have hne1 : ("~/" ++ rest) ≠ "~" := by
      intro h
      have h' := congrArg String.toList h
      rw [hlist] at h'
      simp at h'
    have hpre2 : goStartsWith ("~/" ++ rest) "~/" = true := by
      unfold goStartsWith
      rw [hlist]
      simp [startsWithChars]
    have hdrop : goDrop ("~/" ++ rest) 2 = rest := by
      unfold goDrop
      rw [hlist]
      exact mk_toList rest
    have hexp : expandTilde w2 ("~/" ++ rest) = .ok (filepathJoin home rest) := by
      unfold expandTilde
      rw [if_pos hpre, h2h]
      simp [hne1, hpre2, hdrop]
    have hjoin : (filepathJoin home rest).toList
        = cleanChars (home.toList ++ '/' :: rest.toList) := by
      show joinChars home.toList rest.toList = _
      unfold joinChars
      rw [if_neg (by rw [ht]; simp)]
    have habs : filepathAbs w2.cwd (filepathJoin home rest)
        = filepathClean (filepathJoin home rest) := by
      unfold filepathAbs
      rw [if_pos (by rw [hjoin]; exact isAbs_cleanChars _ hrootX)]
    have hfinal : filepathClean (filepathClean (filepathJoin home rest))
        = filepathClean (home ++ "/" ++ rest) := by
      show String.mk (cleanChars (String.mk (cleanChars (filepathJoin home rest).toList)).toList)
        = String.mk (cleanChars (home ++ "/" ++ rest).toList)
      rw [toList_mk, hjoin, hX,
        cleanChars_idem_rooted (cleanChars (home.toList ++ '/' :: rest.toList))
          (isAbs_cleanChars _ hrootX),
        cleanChars_idem_rooted (home.toList ++ '/' :: rest.toList) hrootX]
    unfold computeTargetPath
    rw [if_neg hne0, h2i, hexp]
    show Except.ok (filepathClean (filepathAbs w2.cwd (filepathJoin home rest)))
      = Except.ok (filepathClean (home ++ "/" ++ rest))
    rw [habs, hfinal]
  refine ⟨hp1, hp2, ?_, ?_⟩
  · intro fs d h
    obtain ⟨hct, _, _, _⟩ := resolve_inversion h
    rw [hp1] at hct
    exact (Except.ok.injEq _ _).mp hct.symm
  · intro fs d h
    obtain ⟨hct, _, _, _⟩ := resolve_inversion h
    rw [hp2] at hct
    exact (Except.ok.injEq _ _).mp hct.symm

/-- The worlds of the C4 witness: input `~` and input `~/proj/cfg`
with home directory `/home/u`. -/
def c4TildeWorld : World := { benignWorld with exportCmdTargetDir := "~" }

/-- Second world of the C4 witness. -/
def c4RestWorld : World := { benignWorld with exportCmdTargetDir := "~/proj/cfg" }

/-- Witness for C4 at home `/home/u` and rest `proj/cfg`. -/
theorem c4_tilde_resolution_witness :
    computeTargetPath c4TildeWorld = .ok "/home/u" ∧
    computeTargetPath c4RestWorld
      = .ok (filepathClean ("/home/u" ++ "/" ++ "proj/cfg")) := by
  have h := c4_tilde_resolution c4TildeWorld c4RestWorld "/home/u" "proj/cfg"
    rfl rfl (by decide) (by decide) rfl
  exact ⟨h.1, h.2.1⟩

/-- C6: in every run both category subdirectories are created (in
order `groups`, then `servers`) before any listing fetch is attempted:
a failure of either creation aborts the run with only the
subdirectory-creation message emitted — the output contains no
"Fetching" message and the fetch phase is never entered — while after
two successful creations both directories exist in the state in which
the fetch phase starts. -/
theorem c6_subdirs_before_any_fetch (w : World) (fs0 : FS) (td : String)
    (hres : resolveTargetDirForExport w = .ok (fs0, td)) :
    (∀ e, osMkdir w fs0 (filepathJoin td exportToolGroupsDir) = .error e →
      runExport w = (fs0, ["Creating subdirectories inside " ++ td],
        some ("failed to create groups directory: " ++ e))) ∧
    (∀ fs1 e, osMkdir w fs0 (filepathJoin td exportToolGroupsDir) = .ok fs1 →
      osMkdir w fs1 (filepathJoin td exportMcpServersDir) = .error e →
      runExport w = (fs1, ["Creating subdirectories inside " ++ td],
        some ("failed to create mcp servers directory: " ++ e))) ∧
    (∀ fs1 fs2, osMkdir w fs0 (filepathJoin td exportToolGroupsDir) = .ok fs1 →
      osMkdir w fs1 (filepathJoin td exportMcpServersDir) = .ok fs2 →
      fsIsDir fs2 (filepathJoin td exportToolGroupsDir) = true ∧
      fsIsDir fs2 (filepathJoin td exportMcpServersDir) = true ∧
      runExport w = exportFetchPhase w fs2 ["Creating subdirectories inside " ++ td]
        (filepathJoin td exportToolGroupsDir) (filepathJoin td exportMcpServersDir)) := by
  refine ⟨?_, ?_, ?_⟩
  · intro e hmk
    simp only [runExport, hres, hmk]
  · intro fs1 e hmkg hmks
    simp only [runExport, hres, hmkg, hmks]
  · intro fs1 fs2 hmkg hmks
    have h1 := osMkdir_ok hmkg
    have h2 := osMkdir_ok hmks
    subst h1
    subst h2
    refine ⟨?_, ?_, ?_⟩
    · show (filepathJoin td exportMcpServersDir
        :: filepathJoin td exportToolGroupsDir :: fs0.dirs).contains
          (filepathJoin td exportToolGroupsDir) = true
      exact contains_cons_true_tail contains_cons_true_head
    · show (filepathJoin td exportMcpServersDir
        :: filepathJoin td exportToolGroupsDir :: fs0.dirs).contains
          (filepathJoin td exportMcpServersDir) = true
      exact contains_cons_true_head
    · simp only [runExport, hres, hmkg, hmks]

/-- The world of the C6 witness: creating `/export/groups` fails. -/
def c6World : World := { benignWorld with mkdirFails := ["/export/groups"] }

/-- Witness for C6: the subdirectory-creation failure aborts the run
with no fetch message in the output. -/
theorem c6_subdirs_before_any_fetch_witness :
    runExport c6World = (⟨["/export", "/"], []⟩,
      ["Creating subdirectories inside " ++ "/export"],
      some ("failed to create groups directory: "
        ++ "mkdir /export/groups: permission denied")) :=
  (c6_subdirs_before_any_fetch c6World ⟨["/export", "/"], []⟩ "/export" (by decide)).1
    "mkdir /export/groups: permission denied" (by decide)

/-- C5: a write (or serialization) failure for a single entity aborts
the whole export immediately with that entity's error, and everything
already on disk stays there: in the tool-group phase the run ends in
exactly the state reached before the failing write, and in the server
phase the server listing's write loop ends in the pre-failure state,
with every file of the earlier states still present (no rollback). -/
theorem c5_write_failure_aborts (w : World) (fs0 fs1 fs2 : FS) (td : String)
    (hres : resolveTargetDirForExport w = .ok (fs0, td))
    (hmkg : osMkdir w fs0 (filepathJoin td exportToolGroupsDir) = .ok fs1)
    (hmks : osMkdir w fs1 (filepathJoin td exportMcpServersDir) = .ok fs2) :
    (∀ es1 (e : Entity) es2 fsm err,
      w.groupsResult = .ok (es1 ++ e :: es2) →
      writeEntities w (filepathJoin td exportToolGroupsDir) es1 fs2 = (fsm, none) →
      writeJSONConfigFile w fsm (filepathJoin td exportToolGroupsDir) e.Name e.value
        = .error err →
      runExport w = (fsm,
        ["Creating subdirectories inside " ++ td,
         "Fetching Tool Group configurations...",
         "Writing Tool Groups configurations to " ++ filepathJoin td exportToolGroupsDir],
        some err) ∧
      (∀ p, fsIsFile fs2 p = true → fsIsFile fsm p = true)) ∧
    (∀ out fs' es1 (e : Entity) es2 fsm err,
      w.serversResult = .ok (es1 ++ e :: es2) →
      writeEntities w (filepathJoin td exportMcpServersDir) es1 fs' = (fsm, none) →
      writeJSONConfigFile w fsm (filepathJoin td exportMcpServersDir) e.Name e.value
        = .error err →
      exportServersPhase w fs' out (filepathJoin td exportMcpServersDir)
        = (fsm, out ++ ["Fetching MCP Server configurations...",
            "Writing MCP Server configurations to "
              ++ filepathJoin td exportMcpServersDir],
          some err) ∧
      (∀ p, fsIsFile fs' p = true → fsIsFile fsm p = true)) := by
  constructor
  · intro es1 e es2 fsm err hg hpre hfail
    have hwe := writeEntities_append_fail w (filepathJoin td exportToolGroupsDir) e err
      es2 es1 fs2 fsm hpre hfail
    have hne : (es1 ++ e :: es2).isEmpty = false := by
      cases es1 <;> simp [List.isEmpty]
    constructor
    · simp only [runExport, hres, hmkg, hmks, exportFetchPhase, hg, hne, hwe]
      simp
    · intro p hp
      exact writeEntities_file_mono w (filepathJoin td exportToolGroupsDir)
        es1 fs2 fsm none p hpre hp
  · intro out fs' es1 e es2 fsm err hs hpre hfail
    have hwe := writeEntities_append_fail w (filepathJoin td exportMcpServersDir) e err
      es2 es1 fs' fsm hpre hfail
    have hne : (es1 ++ e :: es2).isEmpty = false := by
      cases es1 <;> simp [List.isEmpty]
    constructor
    · simp only [exportServersPhase, hs, hne, hwe]
      simp
    · intro p hp
      exact writeEntities_file_mono w (filepathJoin td exportMcpServersDir)
        es1 fs' fsm none p hpre hp

/-- The world of the C5 witness: one tool group whose file write
fails. -/
def c5World : World :=
  { benignWorld with
      writeFails := ["/export/groups/g1.json"]
      groupsResult := .ok [⟨"g1", .str "v1"⟩] }

/-- Witness for C5: the failing write aborts the run with the wrapped
write error; the filesystem stays exactly as it was before the failing
write (both subdirectories exist, no file written). -/
theorem c5_write_failure_aborts_witness :
    runExport c5World = (⟨["/export/servers", "/export/groups", "/export", "/"], []⟩,
      ["Creating subdirectories inside " ++ "/export",
       "Fetching Tool Group configurations...",
       "Writing Tool Groups configurations to "
         ++ filepathJoin "/export" exportToolGroupsDir],
      some ("failed to write entity file /export/groups/g1.json: "
        ++ "open /export/groups/g1.json: input output error")) :=
  ((c5_write_failure_aborts c5World ⟨["/export", "/"], []⟩
      ⟨["/export/groups", "/export", "/"], []⟩
      ⟨["/export/servers", "/export/groups", "/export", "/"], []⟩ "/export"
      (by decide) (by decide) (by decide)).1 [] ⟨"g1", .str "v1"⟩ []
      ⟨["/export/servers", "/export/groups", "/export", "/"], []⟩
      ("failed to write entity file /export/groups/g1.json: "
        ++ "open /export/groups/g1.json: input output error")
      (by rfl) (by rfl) (by decide)).1

/-- C8: when two entities of the same category share a sanitized
basename, the export succeeds without error, the second write silently
overwrites the first, and the final file holds the serialization of
the second (later-listed) entity. -/
theorem c8_collision_overwrite (w : World) (fs0 : FS) (td : String) (e1 e2 : Entity)
    (hcwd : isAbsChars w.cwd.toList = true)
    (hres : resolveTargetDirForExport w = .ok (fs0, td))
    (hmf : w.mkdirFails = []) (hwf : w.writeFails = [])
    (hg : w.groupsResult = .ok [e1, e2])
    (hs : w.serversResult = .ok [])
    (hsame : filepathBase e1.Name = filepathBase e2.Name)
    (hfd : fsIsDir fs0 (entityFilePath (filepathJoin td exportToolGroupsDir) e1.Name)
      = false) :
    entityFilePath (filepathJoin td exportToolGroupsDir) e2.Name
      = entityFilePath (filepathJoin td exportToolGroupsDir) e1.Name ∧
    (runExport w).2.2 = none ∧
    fsFileContent (runExport w).1
      (entityFilePath (filepathJoin td exportToolGroupsDir) e1.Name)
      = some (marshalIndent e2.value) := by
  obtain ⟨segs, hshape, hnorm, hdir, hemp, hjg, hpg, hjs, hps, hmkg, hmks⟩ :=
    export_setup w fs0 td hcwd hres hmf
  have hpatheq : entityFilePath (filepathJoin td exportToolGroupsDir) e2.Name
      = entityFilePath (filepathJoin td exportToolGroupsDir) e1.Name := by
    unfold entityFilePath
    rw [hsame]
  have hgnorm : ∀ x ∈ segs ++ [exportToolGroupsDir.toList], NormalSeg x := by
    intro x hx
    rcases List.mem_append.mp hx with h | h
    · exact hnorm x h
    · rw [List.mem_singleton.mp h]; decide
  have hsnorm : ∀ x ∈ segs ++ [exportMcpServersDir.toList], NormalSeg x := by
    intro x hx
    rcases List.mem_append.mp hx with h | h
    · exact hnorm x h
    · rw [List.mem_singleton.mp h]; decide
  obtain ⟨cf, hcf, hpathshape, hparent⟩ :=
    entityFilePath_shape (filepathJoin td exportToolGroupsDir)
      (segs ++ [exportToolGroupsDir.toList]) hjg hgnorm e1.Name
  have hfnorm : ∀ x ∈ (segs ++ [exportToolGroupsDir.toList]) ++ [cf], NormalSeg x := by
    intro x hx
    rcases List.mem_append.mp hx with h | h
    · exact hgnorm x h
    · rw [List.mem_singleton.mp h]; exact hcf
  have hp_ne_gd : entityFilePath (filepathJoin td exportToolGroupsDir) e1.Name
      ≠ filepathJoin td exportToolGroupsDir :=
    join_str_ne hpathshape hjg hfnorm hgnorm (segs_ne_of_length (by simp))
  have hp_ne_sd : entityFilePath (filepathJoin td exportToolGroupsDir) e1.Name
      ≠ filepathJoin td exportMcpServersDir :=
    join_str_ne hpathshape hjs hfnorm hsnorm (segs_ne_of_length (by simp))
  have hdirp : fsIsDir ⟨filepathJoin td exportMcpServersDir
        :: filepathJoin td exportToolGroupsDir :: fs0.dirs, fs0.files⟩
      (entityFilePath (filepathJoin td exportToolGroupsDir) e1.Name) = false := by
    show (filepathJoin td exportMcpServersDir
        :: filepathJoin td exportToolGroupsDir :: fs0.dirs).contains _ = false
    exact contains_cons_false hp_ne_sd (contains_cons_false hp_ne_gd hfd)
  have hpard : fsIsDir ⟨filepathJoin td exportMcpServersDir
        :: filepathJoin td exportToolGroupsDir :: fs0.dirs, fs0.files⟩
      (parentPath (entityFilePath (filepathJoin td exportToolGroupsDir) e1.Name))
        = true := by
    rw [hparent]
    show (filepathJoin td exportMcpServersDir
        :: filepathJoin td exportToolGroupsDir :: fs0.dirs).contains _ = true
    exact contains_cons_true_tail contains_cons_true_head
  have hnofail : ∀ q, w.writeFails.contains q = false := by
    intro q
    rw [hwf]
    rfl
  have hw1 := writeJSON_succeeds w
    ⟨filepathJoin td exportMcpServersDir
      :: filepathJoin td exportToolGroupsDir :: fs0.dirs, fs0.files⟩
    (filepathJoin td exportToolGroupsDir) e1.Name e1.value
    (hnofail _) hdirp hpard
  have hw2 := writeJSON_succeeds w
    ⟨filepathJoin td exportMcpServersDir
        :: filepathJoin td exportToolGroupsDir :: fs0.dirs,
      setFile fs0.files (entityFilePath (filepathJoin td exportToolGroupsDir) e1.Name)
        (marshalIndent e1.value)⟩
    (filepathJoin td exportToolGroupsDir) e2.Name e2.value
    (hnofail _) (by rw [hpatheq]; exact hdirp) (by rw [hpatheq]; exact hpard)
  have hwe : writeEntities w (filepathJoin td exportToolGroupsDir) [e1, e2]
      ⟨filepathJoin td exportMcpServersDir
        :: filepathJoin td exportToolGroupsDir :: fs0.dirs, fs0.files⟩
      = (⟨filepathJoin td exportMcpServersDir
            :: filepathJoin td exportToolGroupsDir :: fs0.dirs,
          setFile (setFile fs0.files
              (entityFilePath (filepathJoin td exportToolGroupsDir) e1.Name)
              (marshalIndent e1.value))
            (entityFilePath (filepathJoin td exportToolGroupsDir) e2.Name)
            (marshalIndent e2.value)⟩, none) := by
    simp only [writeEntities, hw1, hw2]
  have hrun : runExport w
      = (⟨filepathJoin td exportMcpServersDir
            :: filepathJoin td exportToolGroupsDir :: fs0.dirs,
          setFile (setFile fs0.files
              (entityFilePath (filepathJoin td exportToolGroupsDir) e1.Name)
              (marshalIndent e1.value))
            (entityFilePath (filepathJoin td exportToolGroupsDir) e2.Name)
            (marshalIndent e2.value)⟩,
         ["Creating subdirectories inside " ++ td,
          "Fetching Tool Group configurations...",
          "Writing Tool Groups configurations to " ++ filepathJoin td exportToolGroupsDir,
          "Fetching MCP Server configurations...", "No MCP Servers found.",
          "Export complete!"],
         none) := by
    simp only [runExport, hres, hmkg, hmks, exportFetchPhase, hg,
      List.isEmpty, hwe, exportServersPhase, hs]
    simp
  refine ⟨hpatheq, ?_, ?_⟩
  · rw [hrun]
  · rw [hrun]
    show lookupFile (setFile (setFile fs0.files _ _)
      (entityFilePath (filepathJoin td exportToolGroupsDir) e2.Name) _) _ = _
    rw [hpatheq]
    exact lookupFile_setFile_self _ _ _

/-- The world of the C8 witness: two tool groups whose names share the
sanitized basename `dup`. -/
def c8World : World :=
  { benignWorld with
      groupsResult := .ok [⟨"dup", .str "one"⟩, ⟨"x/dup", .str "two"⟩] }

/-- Witness for C8: the colliding second entity wins; the run
succeeds. -/
theorem c8_collision_overwrite_witness :
    entityFilePath (filepathJoin "/export" exportToolGroupsDir) "x/dup"
      = entityFilePath (filepathJoin "/export" exportToolGroupsDir) "dup" ∧
    (runExport c8World).2.2 = none ∧
    fsFileContent (runExport c8World).1
      (entityFilePath (filepathJoin "/export" exportToolGroupsDir) "dup")
      = some (marshalIndent (.str "two")) :=
  c8_collision_overwrite c8World ⟨["/export", "/"], []⟩ "/export"
    ⟨"dup", .str "one"⟩ ⟨"x/dup", .str "two"⟩
    (by decide) (by decide) (by rfl) (by rfl) (by rfl) (by rfl) (by decide) (by decide)

/-- C1: when the tool-group listing fails with `gErr` but the server
listing succeeds with entities `A` and `B` (distinct plain names), the
run writes `servers/<A>.json` and `servers/<B>.json` with the
entities' serializations, writes no file under `groups/`, emits the
tool-group warning, and still returns success. -/
theorem c1_partial_failure_export (w : World) (fs0 : FS) (td : String)
    (gErr : GoError) (A B : Entity)
    (hcwd : isAbsChars w.cwd.toList = true)
    (hres : resolveTargetDirForExport w = .ok (fs0, td))
    (hmf : w.mkdirFails = []) (hwf : w.writeFails = [])
    (hg : w.groupsResult = .error gErr)
    (hs : w.serversResult = .ok [A, B])
    (hAns : NoSlash A.Name.toList) (hAne : A.Name ≠ "")
    (hBns : NoSlash B.Name.toList) (hBne : B.Name ≠ "")
    (hABne : A.Name ≠ B.Name)
    (hAd : fsIsDir fs0
      (entityFilePath (filepathJoin td exportMcpServersDir) A.Name) = false)
    (hBd : fsIsDir fs0
      (entityFilePath (filepathJoin td exportMcpServersDir) B.Name) = false) :
    fsFileContent (runExport w).1
      (entityFilePath (filepathJoin td exportMcpServersDir) A.Name)
      = some (marshalIndent A.value) ∧
    fsFileContent (runExport w).1
      (entityFilePath (filepathJoin td exportMcpServersDir) B.Name)
      = some (marshalIndent B.value) ∧
    (∀ p c, (p, c) ∈ (runExport w).1.files →
      parentPath p = filepathJoin td exportToolGroupsDir → (p, c) ∈ fs0.files) ∧
    ("warning: failed to fetch tool group configurations: " ++ gErr)
      ∈ (runExport w).2.1 ∧
    (runExport w).2.2 = none := by
  obtain ⟨segs, hshape, hnorm, hdir, hemp, hjg, hpg, hjs, hps, hmkg, hmks⟩ :=
    export_setup w fs0 td hcwd hres hmf
  have hgnorm : ∀ x ∈ segs ++ [exportToolGroupsDir.toList], NormalSeg x := by
    intro x hx
    rcases List.mem_append.mp hx with h | h
    · exact hnorm x h
    · rw [List.mem_singleton.mp h]; decide
  have hsnorm : ∀ x ∈ segs ++ [exportMcpServersDir.toList], NormalSeg x := by
    intro x hx
    rcases List.mem_append.mp hx with h | h
    · exact hnorm x h
    · rw [List.mem_singleton.mp h]; decide
  have hgsne : filepathJoin td exportMcpServersDir ≠ filepathJoin td exportToolGroupsDir := by
    refine join_str_ne hjs hjg hsnorm hgnorm ?_
    intro h
    have := List.append_cancel_left h
    simp only [List.cons.injEq, and_true] at this
    exact absurd this (by decide)
  -- simple names: Base is the identity, so the filename segment is Name ++ ".json"
  have hbA : filepathBase A.Name = A.Name := by
    show String.mk (baseChars A.Name.toList) = A.Name
    rw [baseChars_simple A.Name.toList hAns (toList_ne_of_ne_str hAne)]
    exact mk_toList A.Name
  have hbB : filepathBase B.Name = B.Name := by
    show String.mk (baseChars B.Name.toList) = B.Name
    rw [baseChars_simple B.Name.toList hBns (toList_ne_of_ne_str hBne)]
    exact mk_toList B.Name
  have hcA : (A.Name ++ ".json").toList = A.Name.toList ++ ".json".toList :=
    toList_append A.Name ".json"
  have hcB : (B.Name ++ ".json").toList = B.Name.toList ++ ".json".toList :=
    toList_append B.Name ".json"
  have hnA : NormalSeg (A.Name ++ ".json").toList := by
    rw [hcA]; exact jsonSeg_normal _ hAns
  have hnB : NormalSeg (B.Name ++ ".json").toList := by
    rw [hcB]; exact jsonSeg_normal _ hBns
  have hentA : entityFilePath (filepathJoin td exportMcpServersDir) A.Name
      = filepathJoin (filepathJoin td exportMcpServersDir) (A.Name ++ ".json") := by
    unfold entityFilePath
    rw [hbA]
  have hentB : entityFilePath (filepathJoin td exportMcpServersDir) B.Name
      = filepathJoin (filepathJoin td exportMcpServersDir) (B.Name ++ ".json") := by
    unfold entityFilePath
    rw [hbB]
  obtain ⟨hjA, hpA⟩ := join_seg_str (filepathJoin td exportMcpServersDir)
    (segs ++ [exportMcpServersDir.toList]) hjs hsnorm (A.Name ++ ".json") hnA
  obtain ⟨hjB, hpB⟩ := join_seg_str (filepathJoin td exportMcpServersDir)
    (segs ++ [exportMcpServersDir.toList]) hjs hsnorm (B.Name ++ ".json") hnB
  have hfnA : ∀ x ∈ (segs ++ [exportMcpServersDir.toList]) ++ [(A.Name ++ ".json").toList],
      NormalSeg x := by
    intro x hx
    rcases List.mem_append.mp hx with h | h
    · exact hsnorm x h
    · rw [List.mem_singleton.mp h]; exact hnA
  have hfnB : ∀ x ∈ (segs ++ [exportMcpServersDir.toList]) ++ [(B.Name ++ ".json").toList],
      NormalSeg x := by
    intro x hx
    rcases List.mem_append.mp hx with h | h
    · exact hsnorm x h
    · rw [List.mem_singleton.mp h]; exact hnB
  have hA_ne_gd : filepathJoin (filepathJoin td exportMcpServersDir) (A.Name ++ ".json")
      ≠ filepathJoin td exportToolGroupsDir :=
    join_str_ne hjA hjg hfnA hgnorm (segs_ne_of_length (by simp))
  have hA_ne_sd : filepathJoin (filepathJoin td exportMcpServersDir) (A.Name ++ ".json")
      ≠ filepathJoin td exportMcpServersDir :=
    join_str_ne hjA hjs hfnA hsnorm (segs_ne_of_length (by simp))
  have hB_ne_gd : filepathJoin (filepathJoin td exportMcpServersDir) (B.Name ++ ".json")
      ≠ filepathJoin td exportToolGroupsDir :=
    join_str_ne hjB hjg hfnB hgnorm (segs_ne_of_length (by simp))
  have hB_ne_sd : filepathJoin (filepathJoin td exportMcpServersDir) (B.Name ++ ".json")
      ≠ filepathJoin td exportMcpServersDir :=
    join_str_ne hjB hjs hfnB hsnorm (segs_ne_of_length (by simp))
  have hB_ne_A : entityFilePath (filepathJoin td exportMcpServersDir) B.Name
      ≠ entityFilePath (filepathJoin td exportMcpServersDir) A.Name := by
    rw [hentA, hentB]
    refine join_str_ne hjB hjA hfnB hfnA ?_
    intro h
    have h1 := List.append_cancel_left h
    simp only [List.cons.injEq, and_true] at h1
    rw [hcA, hcB] at h1
    have h2 := List.append_cancel_right h1
    exact hABne (by rw [← mk_toList B.Name, h2, mk_toList])
  have hnofail : ∀ q, w.writeFails.contains q = false := by
    intro q
    rw [hwf]
    rfl
  have hdirpA : fsIsDir ⟨filepathJoin td exportMcpServersDir
        :: filepathJoin td exportToolGroupsDir :: fs0.dirs, fs0.files⟩
      (entityFilePath (filepathJoin td exportMcpServersDir) A.Name) = false := by
    show (filepathJoin td exportMcpServersDir
        :: filepathJoin td exportToolGroupsDir :: fs0.dirs).contains _ = false
    rw [hentA]
    rw [hentA] at hAd
    exact contains_cons_false hA_ne_sd (contains_cons_false hA_ne_gd hAd)
  have hdirpB : fsIsDir ⟨filepathJoin td exportMcpServersDir
        :: filepathJoin td exportToolGroupsDir :: fs0.dirs, fs0.files⟩
      (entityFilePath (filepathJoin td exportMcpServersDir) B.Name) = false := by
    show (filepathJoin td exportMcpServersDir
        :: filepathJoin td exportToolGroupsDir :: fs0.dirs).contains _ = false
    rw [hentB]
    rw [hentB] at hBd
    exact contains_cons_false hB_ne_sd (contains_cons_false hB_ne_gd hBd)
  have hpardA : fsIsDir ⟨filepathJoin td exportMcpServersDir
        :: filepathJoin td exportToolGroupsDir :: fs0.dirs, fs0.files⟩
      (parentPath (entityFilePath (filepathJoin td exportMcpServersDir) A.Name))
        = true := by
    rw [hentA, hpA]
    exact contains_cons_true_head
  have hpardB : fsIsDir ⟨filepathJoin td exportMcpServersDir
        :: filepathJoin td exportToolGroupsDir :: fs0.dirs, fs0.files⟩
      (parentPath (entityFilePath (filepathJoin td exportMcpServersDir) B.Name))
        = true := by
    rw [hentB, hpB]
    exact contains_cons_true_head
  have hw1 := writeJSON_succeeds w
    ⟨filepathJoin td exportMcpServersDir
      :: filepathJoin td exportToolGroupsDir :: fs0.dirs, fs0.files⟩
    (filepathJoin td exportMcpServersDir) A.Name A.value
    (hnofail _) hdirpA hpardA
  have hw2 := writeJSON_succeeds w
    ⟨filepathJoin td exportMcpServersDir
        :: filepathJoin td exportToolGroupsDir :: fs0.dirs,
      setFile fs0.files (entityFilePath (filepathJoin td exportMcpServersDir) A.Name)
        (marshalIndent A.value)⟩
    (filepathJoin td exportMcpServersDir) B.Name B.value
    (hnofail _) hdirpB hpardB
  have hwe : writeEntities w (filepathJoin td exportMcpServersDir) [A, B]
      ⟨filepathJoin td exportMcpServersDir
        :: filepathJoin td exportToolGroupsDir :: fs0.dirs, fs0.files⟩
      = (⟨filepathJoin td exportMcpServersDir
            :: filepathJoin td exportToolGroupsDir :: fs0.dirs,
          setFile (setFile fs0.files
              (entityFilePath (filepathJoin td exportMcpServersDir) A.Name)
              (marshalIndent A.value))
            (entityFilePath (filepathJoin td exportMcpServersDir) B.Name)
            (marshalIndent B.value)⟩, none) := by
    simp only [writeEntities, hw1, hw2]
  have hrun : runExport w
      = (⟨filepathJoin td exportMcpServersDir
            :: filepathJoin td exportToolGroupsDir :: fs0.dirs,
          setFile (setFile fs0.files
              (entityFilePath (filepathJoin td exportMcpServersDir) A.Name)
              (marshalIndent A.value))
            (entityFilePath (filepathJoin td exportMcpServersDir) B.Name)
            (marshalIndent B.value)⟩,
         ["Creating subdirectories inside " ++ td,
          "Fetching Tool Group configurations...",
          "warning: failed to fetch tool group configurations: " ++ gErr,
          "Fetching MCP Server configurations...",
          "Writing MCP Server configurations to " ++ filepathJoin td exportMcpServersDir,
          "Export complete!"],
         none) := by
    simp only [runExport, hres, hmkg, hmks, exportFetchPhase, hg,
      exportServersPhase, hs, List.isEmpty, hwe]
    simp
  refine ⟨?_, ?_, ?_, ?_, ?_⟩
  · rw [hrun]
    show lookupFile (setFile (setFile fs0.files _ _) _ _) _ = _
    rw [lookupFile_setFile_ne _ _ _ _ hB_ne_A]
    exact lookupFile_setFile_self _ _ _
  · rw [hrun]
    exact lookupFile_setFile_self _ _ _
  · rw [hrun]
    intro p c hmem hpar
    rcases mem_setFile _ _ _ _ hmem with hmem1 | hkey
    · rcases mem_setFile _ _ _ _ hmem1 with hmem0 | hkey
      · exact hmem0
      · exfalso
        have hkey' : p = entityFilePath (filepathJoin td exportMcpServersDir) A.Name :=
          hkey
        rw [hkey', hentA, hpA] at hpar
        exact hgsne hpar
    · exfalso
      have hkey' : p = entityFilePath (filepathJoin td exportMcpServersDir) B.Name :=
        hkey
      rw [hkey', hentB, hpB] at hpar
      exact hgsne hpar
  · rw [hrun]
    simp
  · rw [hrun]

/-- The world of the C1 witness: the tool-group listing fails, the
server listing returns entities `A` and `B`. -/
def c1World : World :=
  { benignWorld with
      groupsResult := .error "connection refused"
      serversResult := .ok [⟨"A", .str "a"⟩, ⟨"B", .str "b"⟩] }

/-- Witness for C1: both server files are written with their
serializations, the warning is emitted, and the run succeeds. -/
theorem c1_partial_failure_export_witness :
    fsFileContent (runExport c1World).1
      (entityFilePath (filepathJoin "/export" exportMcpServersDir) "A")
      = some (marshalIndent (.str "a")) ∧
    fsFileContent (runExport c1World).1
      (entityFilePath (filepathJoin "/export" exportMcpServersDir) "B")
      = some (marshalIndent (.str "b")) ∧
    ("warning: failed to fetch tool group configurations: " ++ "connection refused")
      ∈ (runExport c1World).2.1 ∧
    (runExport c1World).2.2 = none := by
  have h := c1_partial_failure_export c1World ⟨["/export", "/"], []⟩ "/export"
    "connection refused" ⟨"A", .str "a"⟩ ⟨"B", .str "b"⟩
    (by decide) (by decide) (by rfl) (by rfl) (by rfl) (by rfl)
    (by decide) (by decide) (by decide) (by decide) (by decide)
    (by decide) (by decide)
  exact ⟨h.1, h.2.1, h.2.2.2.1, h.2.2.2.2⟩
